import Mathlib

/-!
Verification development for the gmp-droid Gecko Media Plugin
(droidmedia-backed hardware video decode/encode glue).

The definitions below are a shallow embedding of the C++ sources:
byte buffers are lists of naturals (each byte a value below 256),
32-bit unsigned arithmetic is taken modulo 2 to the 32, the duration
cache (a std map from int64 timestamps to uint64 durations) is an
association list with unique keys, and the decoder/encoder sessions are
explicit state records whose methods return the successor state together
with the list of host callbacks they fire.
-/

namespace GmpDroid

/-- GMP error codes used by gmp-droid (subset of GMPErr). -/
inductive GMPErr where
  | noErr
  | genericErr
  | allocErr
  | notImplementedErr
  | decodeErr
  | encodeErr
  deriving DecidableEq, Repr

/-- GMPBufferType: framing convention of an encoded frame buffer. -/
inductive GMPBufferType where
  | single
  | len8
  | len16
  | len24
  | len32
  | invalid
  deriving DecidableEq, Repr

/-- GMPVideoCodecType restricted to the values gmp-droid distinguishes. -/
inductive GMPCodecType where
  | vp8
  | vp9
  | h264
  | unknownCodec
  deriving DecidableEq, Repr

/-- GMPVideoFrameType (key frame marker). -/
inductive GMPFrameType where
  | keyFrame
  | deltaFrame
  deriving DecidableEq, Repr

/-! ## Byte buffers

A frame buffer is a `List Nat`.  Reads out of range return 0 (the model
never relies on such reads along well-formed paths; they mirror what the
C code would read only on paths the proofs avoid or expose). -/

/-- Read one byte of the buffer; out-of-range reads default to 0. -/
def byteAt (buf : List Nat) (i : Nat) : Nat :=
  buf.getD i 0

/-- In-place write of a byte string at an offset (memcpy). -/
def writeAt (buf : List Nat) (off : Nat) : List Nat → List Nat
  | [] => buf
  | b :: bs => writeAt (buf.set off b) (off + 1) bs

/-- Big-endian 4-byte encoding of a 32-bit value (network byte order). -/
def be32 (n : Nat) : List Nat :=
  [n / 2 ^ 24 % 256, n / 2 ^ 16 % 256, n / 2 ^ 8 % 256, n % 256]

/-- Little-endian 4-byte encoding, as written by UnalignedWrite32. -/
def le32 (n : Nat) : List Nat :=
  [n % 256, n / 2 ^ 8 % 256, n / 2 ^ 16 % 256, n / 2 ^ 24 % 256]

/-- The NAL start code 00 00 00 01. -/
def nalStartCode : List Nat := [0, 0, 0, 1]

/-- The last scl bytes of the start code (code + (4 - start_code_len)). -/
def startCodeBytes (scl : Nat) : List Nat :=
  nalStartCode.drop (4 - scl)

/-! ## Decode-direction reframing

DroidVideoDecoder::Decode replaces each NAL length field by (the tail
of) the start code, scanning left to right.  Reading the length uses
ntohl/ntohs on the raw bytes, i.e. a big-endian read of 4, 2 or 1
bytes, depending on the GMPBufferType.  GMP_BufferLength24 and
GMP_BufferInvalid hit the switch default and abort with GMPDecodeErr,
which the model signals by returning none. -/

/-- Read the NAL length field at an offset: the value and the field
width (start_code_len).  none encodes the unsupported-framing error. -/
def readLen (bt : GMPBufferType) (buf : List Nat) (off : Nat) :
    Option (Nat × Nat) :=
  match bt with
  | .len32 => some (byteAt buf off * 2 ^ 24 + byteAt buf (off + 1) * 2 ^ 16 +
      byteAt buf (off + 2) * 2 ^ 8 + byteAt buf (off + 3), 4)
  | .len16 => some (byteAt buf off * 2 ^ 8 + byteAt buf (off + 1), 2)
  | .len8 => some (byteAt buf off, 1)
  | _ => none

/-- The while loop of DroidVideoDecoder::Decode.  The fuel argument only
bounds the recursion; each iteration advances the offset by at least one
byte, so fuel of buffer length + 1 is never exhausted. -/
def decodeLoop (bt : GMPBufferType) : Nat → List Nat → Nat → Option (List Nat)
  | 0, buf, _ => some buf
  | fuel + 1, buf, offset =>
    if offset < buf.length then
      match readLen bt buf offset with
      | none => none
      | some (len, scl) =>
        if len = 1 then
          some buf
        else if (offset + len + 4) % 2 ^ 32 > buf.length then
          some buf
        else
          decodeLoop bt fuel (writeAt buf offset (startCodeBytes scl))
            (offset + scl + len)
    else
      some buf

/-- The in-place H264 length-to-startcode rewrite of the decode path.
none means the GMPDecodeErr abort for an unsupported framing. -/
def decodeReframe (bt : GMPBufferType) (buf : List Nat) : Option (List Nat) :=
  decodeLoop bt (buf.length + 1) buf 0

/-! ## Encode-direction reframing (DroidVideoEncoder::ConvertNalUnits) -/

/-- memcmp of the pattern against the buffer at position p. -/
def listMatch (buf : List Nat) : Nat → List Nat → Bool
  | _, [] => true
  | p, b :: bs => decide (byteAt buf p = b) && listMatch buf (p + 1) bs

/-- nalStartSize for each buffer type (the switch in ConvertNalUnits);
none is the default branch that returns without rewriting. -/
def nalStartSizeOf : GMPBufferType → Option Nat
  | .len32 => some 4
  | .len24 => some 3
  | .len16 => some 2
  | .len8 => some 1
  | _ => none

/-- On a start-code match, the previous unit's start code (prevNalStart,
when present) is overwritten with that unit's byte length
(UnalignedWrite32, little endian). -/
def cnuWrite (scl : Nat) (buf : List Nat) (p : Nat) : Option Nat → List Nat
  | some q => writeAt buf q (le32 (p - q - scl))
  | none => buf

theorem cnuWrite_some (scl : Nat) (buf : List Nat) (p q : Nat) :
    cnuWrite scl buf p (some q) = writeAt buf q (le32 (p - q - scl)) := rfl

theorem cnuWrite_none (scl : Nat) (buf : List Nat) (p : Nat) :
    cnuWrite scl buf p none = buf := rfl

/-- The scanning loop of ConvertNalUnits.  State: current buffer,
scan position p and the position of the last start code found
(nalStart).  On a match the write to the previous start code happens
(cnuWrite) and the loop breaks once the unit following the start code
has a VCL nal type (low five bits at most 5).  Returns the buffer and
the final nalStart for the trailing write.  Fuel of buffer length + 1
is never exhausted: each iteration advances p by at least one. -/
def cnuLoop (scl : Nat) : Nat → List Nat → Nat → Option Nat →
    List Nat × Option Nat
  | 0, buf, _, ns => (buf, ns)
  | fuel + 1, buf, p, ns =>
    if p < buf.length then
      if listMatch buf p (startCodeBytes scl) then
        if byteAt (cnuWrite scl buf p ns) (p + scl) % 32 ≤ 5 then
          (cnuWrite scl buf p ns, some p)
        else
          cnuLoop scl fuel (cnuWrite scl buf p ns) (p + scl + 1) (some p)
      else
        cnuLoop scl fuel buf (p + 1) ns
    else
      (buf, ns)

/-- DroidVideoEncoder::ConvertNalUnits: replace start codes by NAL unit
lengths (the encode-direction reframing).  After the loop the last unit
found is sized against the end of the buffer. -/
def convertNalUnits (bt : GMPBufferType) (buf : List Nat) : List Nat :=
  match nalStartSizeOf bt with
  | none => buf
  | some scl =>
    match cnuLoop scl (buf.length + 1) buf 0 none with
    | (buf1, some q) => writeAt buf1 q (le32 (buf.length - q - scl))
    | (buf1, none) => buf1

/-! ## NAL unit assemblies used to state the reframing claims -/

/-- Buffer made of 4-byte big-endian length-prefixed units. -/
def nalAssemble32 (units : List (List Nat)) : List Nat :=
  units.foldr (fun u acc => be32 u.length ++ u ++ acc) []

/-- Buffer made of start-code-prefixed units. -/
def scAssemble (units : List (List Nat)) : List Nat :=
  units.foldr (fun u acc => nalStartCode ++ u ++ acc) []

/-- Buffer made of 4-byte little-endian length-prefixed units (the
output convention of ConvertNalUnits). -/
def lenAssemble (units : List (List Nat)) : List Nat :=
  units.foldr (fun u acc => le32 u.length ++ u ++ acc) []

/-! ## Buffer lemmas -/

theorem byteAt_append_right (xs ys : List Nat) (k : Nat) :
    byteAt (xs ++ ys) (xs.length + k) = byteAt ys k := by
  unfold byteAt
  rw [List.getD_append_right xs ys 0 (xs.length + k) (Nat.le_add_right _ _)]
  simp

theorem byteAt_append_left (xs ys : List Nat) (k : Nat) (h : k < xs.length) :
    byteAt (xs ++ ys) k = byteAt xs k := by
  unfold byteAt
  exact List.getD_append xs ys 0 k h

theorem byteAt_ge_length (xs : List Nat) (k : Nat) (h : xs.length ≤ k) :
    byteAt xs k = 0 := by
  unfold byteAt
  rw [List.getD_eq_default]
  exact h

theorem writeAt_length (bs : List Nat) (buf : List Nat) (off : Nat) :
    (writeAt buf off bs).length = buf.length := by
  induction bs generalizing buf off with
  | nil => rfl
  | cons b bs ih => simp [writeAt, ih]

theorem writeAt_append_exact (new : List Nat) (pre old tail : List Nat)
    (h : old.length = new.length) :
    writeAt (pre ++ old ++ tail) pre.length new = pre ++ new ++ tail := by
  induction new generalizing pre old with
  | nil =>
    cases old with
    | nil => simp [writeAt]
    | cons a as => simp at h
  | cons b bs ih =>
    cases old with
    | nil => simp at h
    | cons a as =>
      simp only [writeAt]
      have hset : (pre ++ a :: as ++ tail).set pre.length b
          = pre ++ b :: (as ++ tail) := by
        rw [List.append_assoc, List.set_append_right _ _ (Nat.le_refl _)]
        simp [List.set]
      rw [hset]
      have hlen : as.length = bs.length := by
        simpa using h
      have := ih (pre ++ [b]) as hlen
      simpa [List.append_assoc] using this

theorem byteAt_cons_succ (b : Nat) (bs : List Nat) (j : Nat) :
    byteAt (b :: bs) (j + 1) = byteAt bs j := rfl

theorem byteAt_cons_zero (b : Nat) (bs : List Nat) :
    byteAt (b :: bs) 0 = b := rfl

/-- Characterisation of listMatch byte by byte. -/
theorem listMatch_iff (buf : List Nat) (pat : List Nat) (p : Nat) :
    listMatch buf p pat = true ↔
      ∀ i, i < pat.length → byteAt buf (p + i) = byteAt pat i := by
  induction pat generalizing p with
  | nil => simp [listMatch]
  | cons b bs ih =>
    simp only [listMatch, Bool.and_eq_true, decide_eq_true_eq, ih]
    constructor
    · rintro ⟨h0, hrest⟩ i hi
      cases i with
      | zero => simpa [byteAt_cons_zero] using h0
      | succ j =>
        have hj : j < bs.length := by simpa using hi
        have h2 := hrest j hj
        have e1 : p + (j + 1) = p + 1 + j := by omega
        rw [e1, h2, byteAt_cons_succ]
    · intro h
      constructor
      · have h0 := h 0 (Nat.succ_pos _)
        simpa [byteAt_cons_zero] using h0
      · intro j hj
        have h2 := h (j + 1) (by simpa using hj)
        have e1 : p + (j + 1) = p + 1 + j := by omega
        rw [e1] at h2
        rw [h2, byteAt_cons_succ]

theorem listMatch_shift (A X : List Nat) (k : Nat) (pat : List Nat) :
    listMatch (A ++ X) (A.length + k) pat = listMatch X k pat := by
  induction pat generalizing k with
  | nil => rfl
  | cons b bs ih =>
    simp only [listMatch]
    rw [byteAt_append_right A X (k)]
    rw [Nat.add_assoc, ih (k + 1)]

theorem listMatch_prefix_true (pat Y : List Nat) :
    listMatch (pat ++ Y) 0 pat = true := by
  rw [listMatch_iff]
  intro i hi
  rw [Nat.zero_add, byteAt_append_left pat Y i hi]

/-- Reading back a big-endian 32-bit field. -/
theorem be32_read (n : Nat) (h : n < 2 ^ 32) (tail : List Nat) :
    byteAt (be32 n ++ tail) 0 * 2 ^ 24 + byteAt (be32 n ++ tail) 1 * 2 ^ 16 +
      byteAt (be32 n ++ tail) 2 * 2 ^ 8 + byteAt (be32 n ++ tail) 3 = n := by
  have h0 : byteAt (be32 n ++ tail) 0 = n / 2 ^ 24 % 256 := rfl
  have h1 : byteAt (be32 n ++ tail) 1 = n / 2 ^ 16 % 256 := rfl
  have h2 : byteAt (be32 n ++ tail) 2 = n / 2 ^ 8 % 256 := rfl
  have h3 : byteAt (be32 n ++ tail) 3 = n % 256 := rfl
  rw [h0, h1, h2, h3]
  omega

theorem be32_length (n : Nat) : (be32 n).length = 4 := rfl

theorem le32_length (n : Nat) : (le32 n).length = 4 := rfl

theorem nalAssemble32_cons (u : List Nat) (rest : List (List Nat)) :
    nalAssemble32 (u :: rest) = be32 u.length ++ u ++ nalAssemble32 rest := rfl

theorem scAssemble_cons (u : List Nat) (rest : List (List Nat)) :
    scAssemble (u :: rest) = nalStartCode ++ u ++ scAssemble rest := rfl

theorem lenAssemble_cons (u : List Nat) (rest : List (List Nat)) :
    lenAssemble (u :: rest) = le32 u.length ++ u ++ lenAssemble rest := rfl

theorem nalAssemble32_length (units : List (List Nat)) :
    (nalAssemble32 units).length =
      (units.map (fun u => 4 + u.length)).sum := by
  induction units with
  | nil => rfl
  | cons u rest ih =>
    rw [nalAssemble32_cons]
    simp only [List.length_append, be32_length, List.map_cons, List.sum_cons, ih]

theorem scAssemble_length (units : List (List Nat)) :
    (scAssemble units).length = (units.map (fun u => 4 + u.length)).sum := by
  induction units with
  | nil => rfl
  | cons u rest ih =>
    rw [scAssemble_cons]
    have h4 : nalStartCode.length = 4 := rfl
    simp only [List.length_append, h4, List.map_cons, List.sum_cons, ih]

theorem lenAssemble_length (units : List (List Nat)) :
    (lenAssemble units).length = (units.map (fun u => 4 + u.length)).sum := by
  induction units with
  | nil => rfl
  | cons u rest ih =>
    rw [lenAssemble_cons]
    simp only [List.length_append, le32_length, List.map_cons, List.sum_cons, ih]

/-! ## Decode-direction reframing on well-formed buffers -/

theorem readLen32_at (pre tail : List Nat) (n : Nat) (h : n < 2 ^ 32) :
    readLen .len32 (pre ++ (be32 n ++ tail)) pre.length = some (n, 4) := by
  have e0 : byteAt (pre ++ (be32 n ++ tail)) pre.length
      = byteAt (be32 n ++ tail) 0 := by
    simpa using byteAt_append_right pre (be32 n ++ tail) 0
  have e1 : byteAt (pre ++ (be32 n ++ tail)) (pre.length + 1)
      = byteAt (be32 n ++ tail) 1 := byteAt_append_right pre (be32 n ++ tail) 1
  have e2 : byteAt (pre ++ (be32 n ++ tail)) (pre.length + 2)
      = byteAt (be32 n ++ tail) 2 := byteAt_append_right pre (be32 n ++ tail) 2
  have e3 : byteAt (pre ++ (be32 n ++ tail)) (pre.length + 3)
      = byteAt (be32 n ++ tail) 3 := byteAt_append_right pre (be32 n ++ tail) 3
  simp only [readLen, e0, e1, e2, e3]
  rw [be32_read n h tail]

theorem startCodeBytes_four : startCodeBytes 4 = nalStartCode := rfl

/-- Generalised loop invariant: a tail of 4-byte big-endian
length-prefixed units, none of length 1, is rewritten unit by unit into
start-code form, the already-processed prefix untouched. -/
theorem decodeLoop_units (units : List (List Nat)) :
    ∀ (pre : List Nat) (fuel : Nat),
      units.length ≤ fuel →
      (∀ u ∈ units, u.length ≠ 1) →
      (pre ++ nalAssemble32 units).length < 2 ^ 32 →
      decodeLoop .len32 fuel (pre ++ nalAssemble32 units) pre.length =
        some (pre ++ scAssemble units) := by
  induction units with
  | nil =>
    intro pre fuel _ _ _
    have e : pre ++ nalAssemble32 [] = pre := by simp [nalAssemble32]
    have e2 : pre ++ scAssemble [] = pre := by simp [scAssemble]
    rw [e, e2]
    cases fuel with
    | zero => rfl
    | succ f => simp [decodeLoop]
  | cons u rest ih =>
    intro pre fuel hfuel hne hsize
    cases fuel with
    | zero => simp at hfuel
    | succ f =>
      have hassoc : pre ++ nalAssemble32 (u :: rest)
          = pre ++ (be32 u.length ++ (u ++ nalAssemble32 rest)) := by
        rw [nalAssemble32_cons]
        simp [List.append_assoc]
      rw [hassoc] at hsize ⊢
      have hlen_buf : (pre ++ (be32 u.length ++ (u ++ nalAssemble32 rest))).length
          = pre.length + (4 + (u.length + (nalAssemble32 rest).length)) := by
        simp [be32_length]
      have hu32 : u.length < 2 ^ 32 := by omega
      have hoff : pre.length < (pre ++ (be32 u.length ++ (u ++ nalAssemble32 rest))).length := by
        omega
      have hread := readLen32_at pre (u ++ nalAssemble32 rest) u.length hu32
      have hnot1 : u.length ≠ 1 := hne u (List.mem_cons_self u rest)
      have hmod : (pre.length + u.length + 4) % 2 ^ 32
          = pre.length + u.length + 4 := by
        apply Nat.mod_eq_of_lt
        omega
      have hnoover : ¬ ((pre.length + u.length + 4) % 2 ^ 32
          > (pre ++ (be32 u.length ++ (u ++ nalAssemble32 rest))).length) := by
        rw [hmod]
        omega
      simp only [decodeLoop, if_pos hoff, hread, if_neg hnot1, if_neg hnoover]
      have hwrite : writeAt (pre ++ (be32 u.length ++ (u ++ nalAssemble32 rest)))
          pre.length (startCodeBytes 4)
          = pre ++ (nalStartCode ++ (u ++ nalAssemble32 rest)) := by
        rw [startCodeBytes_four]
        have := writeAt_append_exact nalStartCode pre (be32 u.length)
          (u ++ nalAssemble32 rest) rfl
        simpa [List.append_assoc] using this
      rw [hwrite]
      have hre : pre ++ (nalStartCode ++ (u ++ nalAssemble32 rest))
          = (pre ++ nalStartCode ++ u) ++ nalAssemble32 rest := by
        simp [List.append_assoc]
      have hoff2 : pre.length + 4 + u.length = (pre ++ nalStartCode ++ u).length := by
        have h4 : nalStartCode.length = 4 := rfl
        simp [h4]
        omega
      rw [hre, hoff2]
      have hres := ih (pre ++ nalStartCode ++ u) f (by simpa using Nat.lt_succ_iff.mp (Nat.lt_of_lt_of_le (Nat.lt_succ_of_le (Nat.le_refl _)) hfuel))
        (fun v hv => hne v (List.mem_cons_of_mem u hv))
        (by
          have h4 : nalStartCode.length = 4 := rfl
          simp only [List.length_append, h4]
          simp only [List.length_append] at hsize
          rw [be32_length] at hsize
          omega)
      rw [hres]
      rw [scAssemble_cons]
      simp [List.append_assoc]

theorem units_le_sum (units : List (List Nat)) :
    units.length ≤ (units.map (fun u => 4 + u.length)).sum := by
  induction units with
  | nil => simp
  | cons u rest ih =>
    simp only [List.length_cons, List.map_cons, List.sum_cons]
    omega

/-- Claim C2 counterexample: with 1-byte length framing the code does
not replace length fields with the 4-byte start code 00 00 00 01.  On
the well-formed two-unit buffer 02 AA BB 02 CC DD (lengths 2 and 2,
neither equal to 1, each unit fitting the buffer exactly) the first
length field becomes the single byte 01 and the second is not rewritten
at all, because the overrun guard adds 4 regardless of the field width;
the output never contains the 4-byte start code. -/
theorem decode_reframe_len8_cex :
    decodeReframe .len8 [2, 170, 187, 2, 204, 221]
        = some [1, 170, 187, 2, 204, 221] ∧
    ¬ List.IsInfix nalStartCode [1, 170, 187, 2, 204, 221] := by
  constructor
  · rfl
  · decide

/-- Claim C2 (amended): for 4-byte big-endian length-prefixed framing
the decode path rewrites the frame buffer in place, scanning left to
right and replacing each NAL length field with the 4-byte start code
00 00 00 01, stopping on a length of exactly 1 or on a length that
would overrun the buffer; for every buffer of one or more 4-byte
big-endian length-prefixed NAL units (no length equal to 1) totaling
exactly the buffer size, the byte length is unchanged and every length
field is rewritten to 00 00 00 01.  (For 1- and 2-byte framing only the
trailing 1 or 2 bytes of the start code are written and the overrun
guard still adds 4, as the counterexample shows.) -/
theorem decode_reframe_len32_rewrite (units : List (List Nat))
    (_hne : units ≠ [])
    (h1 : ∀ u ∈ units, u.length ≠ 1)
    (hsize : (nalAssemble32 units).length < 2 ^ 32) :
    decodeReframe .len32 (nalAssemble32 units) = some (scAssemble units) ∧
    (scAssemble units).length = (nalAssemble32 units).length := by
  constructor
  · unfold decodeReframe
    have hfuel : units.length ≤ (nalAssemble32 units).length + 1 := by
      have h1 := units_le_sum units
      rw [← nalAssemble32_length] at h1
      omega
    have h := decodeLoop_units units [] ((nalAssemble32 units).length + 1)
      hfuel h1 (by simpa using hsize)
    simpa using h
  · rw [scAssemble_length, nalAssemble32_length]

/-- Witness for the amended C2 theorem at a concrete two-unit buffer. -/
theorem decode_reframe_len32_rewrite_witness :
    decodeReframe .len32 (nalAssemble32 [[103, 170], [101, 187]])
        = some (scAssemble [[103, 170], [101, 187]]) ∧
    (scAssemble [[103, 170], [101, 187]]).length
        = (nalAssemble32 [[103, 170], [101, 187]]).length :=
  decode_reframe_len32_rewrite [[103, 170], [101, 187]] (by decide)
    (by decide) (by decide)

/-! ## Encode-direction reframing on start-code buffers -/

/-- Offsets of the unit start codes within scAssemble units. -/
def unitPositions : List (List Nat) → List Nat
  | [] => []
  | u :: rest => 0 :: (unitPositions rest).map (fun x => x + (4 + u.length))

/-- No stray start-code occurrence: every match of 00 00 00 01 inside
the assembled buffer lies at a unit boundary. -/
def strayFree (units : List (List Nat)) : Prop :=
  ∀ p, p < (scAssemble units).length →
    listMatch (scAssemble units) p nalStartCode = true →
    p ∈ unitPositions units

/-- Every unit except the last begins with a non-VCL nal header byte
(nal type, the low five bits, above 5). -/
def nonVCLInit : List (List Nat) → Bool
  | [] => true
  | u :: rest =>
    rest.isEmpty || (decide (byteAt u 0 % 32 > 5) && nonVCLInit rest)

/-- The last unit of the list ([] for an empty list). -/
def lastUnit : List (List Nat) → List Nat
  | [] => []
  | u :: rest => if rest.isEmpty then u else lastUnit rest

/-- Offset of the last unit's start code within scAssemble units. -/
def lastUnitPos : List (List Nat) → Nat
  | [] => 0
  | u :: rest => if rest.isEmpty then 0 else 4 + u.length + lastUnitPos rest

/-- Assembly in which every unit except the last is little-endian
length-prefixed while the last still carries its start code: the buffer
at the moment the scan loop of ConvertNalUnits finishes. -/
def lenInitAssemble : List (List Nat) → List Nat
  | [] => []
  | u :: rest =>
    if rest.isEmpty then nalStartCode ++ u
    else le32 u.length ++ u ++ lenInitAssemble rest

theorem lenInitAssemble_single (u : List Nat) :
    lenInitAssemble [u] = nalStartCode ++ u := rfl

theorem lenInitAssemble_cons (u v : List Nat) (rest2 : List (List Nat)) :
    lenInitAssemble (u :: v :: rest2)
      = le32 u.length ++ u ++ lenInitAssemble (v :: rest2) := rfl

theorem lastUnit_single (u : List Nat) : lastUnit [u] = u := rfl

theorem lastUnit_cons (u v : List Nat) (rest2 : List (List Nat)) :
    lastUnit (u :: v :: rest2) = lastUnit (v :: rest2) := rfl

theorem lastUnitPos_single (u : List Nat) : lastUnitPos [u] = 0 := rfl

theorem lastUnitPos_cons (u v : List Nat) (rest2 : List (List Nat)) :
    lastUnitPos (u :: v :: rest2) = 4 + u.length + lastUnitPos (v :: rest2) := rfl

theorem nonVCLInit_cons (u v : List Nat) (rest2 : List (List Nat))
    (hv : nonVCLInit (u :: v :: rest2) = true) :
    byteAt u 0 % 32 > 5 ∧ nonVCLInit (v :: rest2) = true := by
  have hv2 : (decide (byteAt u 0 % 32 > 5) && nonVCLInit (v :: rest2)) = true := hv
  simpa using hv2

theorem scAssemble_last_split (units : List (List Nat)) (h : units ≠ []) :
    (scAssemble units).length
      = lastUnitPos units + 4 + (lastUnit units).length := by
  induction units with
  | nil => exact absurd rfl h
  | cons u rest ih =>
    cases rest with
    | nil =>
      rw [lastUnitPos_single, lastUnit_single]
      simp [scAssemble_cons, scAssemble, nalStartCode]
      omega
    | cons v rest2 =>
      have hne : (v :: rest2) ≠ ([] : List (List Nat)) := by simp
      rw [lastUnitPos_cons, lastUnit_cons, scAssemble_cons]
      have h4 : nalStartCode.length = 4 := rfl
      simp only [List.length_append, h4]
      rw [ih hne]
      omega

/-- The trailing write of ConvertNalUnits turns the scan-final buffer
into the fully length-prefixed assembly. -/
theorem lenInit_final_write (units : List (List Nat)) :
    ∀ A : List Nat, units ≠ [] →
      writeAt (A ++ lenInitAssemble units) (A.length + lastUnitPos units)
          (le32 (lastUnit units).length)
        = A ++ lenAssemble units := by
  induction units with
  | nil => intro _ h; exact absurd rfl h
  | cons u rest ih =>
    intro A _
    cases rest with
    | nil =>
      rw [lenInitAssemble_single, lastUnitPos_single, lastUnit_single]
      have := writeAt_append_exact (le32 u.length) A nalStartCode u rfl
      simp only [Nat.add_zero]
      rw [show A ++ (nalStartCode ++ u) = A ++ nalStartCode ++ u by
        simp [List.append_assoc]]
      rw [this]
      simp [lenAssemble, List.append_assoc]
    | cons v rest2 =>
      have hne : (v :: rest2) ≠ ([] : List (List Nat)) := by simp
      rw [lenInitAssemble_cons, lastUnitPos_cons, lastUnit_cons]
      have hlen : A.length + (4 + u.length + lastUnitPos (v :: rest2))
          = (A ++ le32 u.length ++ u).length + lastUnitPos (v :: rest2) := by
        simp [le32_length]
        omega
      rw [show A ++ (le32 u.length ++ u ++ lenInitAssemble (v :: rest2))
          = (A ++ le32 u.length ++ u) ++ lenInitAssemble (v :: rest2) by
        simp [List.append_assoc]]
      rw [hlen, ih (A ++ le32 u.length ++ u) hne]
      simp [lenAssemble_cons, List.append_assoc]

/-- The loop exits immediately once the scan position reaches the end. -/
theorem cnuLoop_at_end (scl fuel : Nat) (buf : List Nat) (p : Nat)
    (ns : Option Nat) (h : buf.length ≤ p) :
    cnuLoop scl fuel buf p ns = (buf, ns) := by
  cases fuel with
  | zero => rfl
  | succ f =>
    unfold cnuLoop
    rw [if_neg]
    omega

/-- Scanning across a match-free region just advances the position. -/
theorem cnuLoop_scan (buf : List Nat) (ns : Option Nat) (d : Nat) :
    ∀ (fuel p : Nat),
      (∀ x, p ≤ x → x < p + d → listMatch buf x nalStartCode = false) →
      p + d ≤ buf.length →
      cnuLoop 4 (fuel + d) buf p ns = cnuLoop 4 fuel buf (p + d) ns := by
  induction d with
  | zero => intro fuel p _ _; rfl
  | succ d ih =>
    intro fuel p hnm hle
    have hp : p < buf.length := by omega
    have hm : listMatch buf p nalStartCode = false :=
      hnm p (Nat.le_refl _) (by omega)
    have hstep : cnuLoop 4 (fuel + d + 1) buf p ns
        = cnuLoop 4 (fuel + d) buf (p + 1) ns := by
      rw [cnuLoop]
      rw [if_pos hp, startCodeBytes_four, hm]
      simp
    have heq : fuel + (d + 1) = fuel + d + 1 := rfl
    rw [heq, hstep]
    have := ih fuel (p + 1)
      (fun x hx1 hx2 => hnm x (by omega) (by omega)) (by omega)
    rw [this]
    congr 1
    omega

theorem listMatch_shift' (A X : List Nat) (x k : Nat) (pat : List Nat)
    (hx : x = A.length + k) :
    listMatch (A ++ X) x pat = listMatch X k pat := by
  rw [hx]
  exact listMatch_shift A X k pat

theorem byteAt_shift' (A X : List Nat) (x k : Nat) (hx : x = A.length + k) :
    byteAt (A ++ X) x = byteAt X k := by
  rw [hx]
  exact byteAt_append_right A X k

theorem strayFree_tail (u : List Nat) (rest : List (List Nat))
    (h : strayFree (u :: rest)) : strayFree rest := by
  intro rp hb hm
  have hlen4 : (nalStartCode ++ u).length = 4 + u.length := by
    simp [nalStartCode]
    omega
  have h1 := listMatch_shift (nalStartCode ++ u) (scAssemble rest) rp nalStartCode
  rw [hlen4] at h1
  have habs : listMatch (scAssemble (u :: rest)) (4 + u.length + rp) nalStartCode
      = true := by
    rw [scAssemble_cons, List.append_assoc]
    rw [show nalStartCode ++ (u ++ scAssemble rest)
        = (nalStartCode ++ u) ++ scAssemble rest by simp]
    rw [show (nalStartCode ++ u) ++ scAssemble rest
        = nalStartCode ++ u ++ scAssemble rest by simp]
    rw [h1]
    exact hm
  have hblt : 4 + u.length + rp < (scAssemble (u :: rest)).length := by
    rw [scAssemble_length]
    simp only [List.map_cons, List.sum_cons]
    rw [scAssemble_length] at hb
    omega
  have hmem := h (4 + u.length + rp) hblt habs
  simp only [unitPositions, List.mem_cons, List.mem_map] at hmem
  rcases hmem with h0 | ⟨x, hx, he⟩
  · omega
  · have hxe : x = rp := by omega
    subst hxe
    exact hx

theorem no_match_interior (u : List Nat) (rest : List (List Nat))
    (hstray : strayFree (u :: rest)) (rp : Nat) (h5 : 5 ≤ rp)
    (hlt : rp < 4 + u.length) :
    listMatch (scAssemble (u :: rest)) rp nalStartCode = false := by
  cases hlm : listMatch (scAssemble (u :: rest)) rp nalStartCode with
  | false => rfl
  | true =>
    exfalso
    have hb : rp < (scAssemble (u :: rest)).length := by
      rw [scAssemble_length]
      simp only [List.map_cons, List.sum_cons]
      omega
    have hmem := hstray rp hb hlm
    simp only [unitPositions, List.mem_cons, List.mem_map] at hmem
    rcases hmem with h0 | ⟨x, hx, he⟩ <;> omega

/-- Invariant of the ConvertNalUnits scan: positioned on the start code
of the first of units (all nonempty, leading units non-VCL, no stray
start codes), with the previous unit uprev preceded by the already
rewritten prefix A, the loop length-prefixes every unit but the last
and stops with nalStart on the last unit. -/
theorem cnuLoop_units (units : List (List Nat)) :
    ∀ (A uprev : List Nat) (fuel : Nat),
      units ≠ [] →
      (∀ u ∈ units, u ≠ []) →
      nonVCLInit units = true →
      strayFree units →
      (scAssemble units).length ≤ fuel →
      cnuLoop 4 fuel (A ++ nalStartCode ++ uprev ++ scAssemble units)
          (A.length + 4 + uprev.length) (some A.length)
        = (A ++ le32 uprev.length ++ uprev ++ lenInitAssemble units,
           some (A.length + 4 + uprev.length + lastUnitPos units)) := by
  induction units with
  | nil => intro A uprev fuel hne; exact absurd rfl hne
  | cons u rest ih =>
    intro A uprev fuel _ hnonempty hvcl hstray hfuel
    have hulen : 1 ≤ u.length := by
      have := hnonempty u (List.mem_cons_self u rest)
      cases u with
      | nil => exact absurd rfl this
      | cons a as => simp
    have hSCu : (scAssemble (u :: rest)).length
        = 4 + u.length + (scAssemble rest).length := by
      rw [scAssemble_cons]
      simp [nalStartCode]
      omega
    cases fuel with
    | zero =>
      exfalso
      rw [hSCu] at hfuel
      omega
    | succ f =>
      have hp : A.length + 4 + uprev.length
          < (A ++ nalStartCode ++ uprev ++ scAssemble (u :: rest)).length := by
        have h4 : nalStartCode.length = 4 := rfl
        simp only [List.length_append, h4]
        rw [hSCu]
        omega
      have hPRE : A ++ nalStartCode ++ uprev ++ scAssemble (u :: rest)
          = (A ++ nalStartCode ++ uprev) ++ scAssemble (u :: rest) := by
        simp [List.append_assoc]
      have hPRElen : (A ++ nalStartCode ++ uprev).length
          = A.length + 4 + uprev.length := by
        have h4 : nalStartCode.length = 4 := rfl
        simp [h4]
        omega
      have hmatch : listMatch
          (A ++ nalStartCode ++ uprev ++ scAssemble (u :: rest))
          (A.length + 4 + uprev.length) (startCodeBytes 4) = true := by
        rw [startCodeBytes_four, hPRE]
        rw [listMatch_shift' (A ++ nalStartCode ++ uprev)
          (scAssemble (u :: rest)) (A.length + 4 + uprev.length) 0
          nalStartCode (by omega)]
        rw [scAssemble_cons, List.append_assoc]
        exact listMatch_prefix_true nalStartCode (u ++ scAssemble rest)
      have hbuf1 : cnuWrite 4
          (A ++ nalStartCode ++ uprev ++ scAssemble (u :: rest))
          (A.length + 4 + uprev.length) (some A.length)
          = (A ++ le32 uprev.length ++ uprev) ++ scAssemble (u :: rest) := by
        rw [cnuWrite_some]
        rw [show A.length + 4 + uprev.length - A.length - 4 = uprev.length by
          omega]
        have hw := writeAt_append_exact (le32 uprev.length) A nalStartCode
          (uprev ++ scAssemble (u :: rest)) rfl
        rw [show A ++ nalStartCode ++ uprev ++ scAssemble (u :: rest)
            = A ++ nalStartCode ++ (uprev ++ scAssemble (u :: rest)) by
          simp [List.append_assoc]]
        rw [hw]
        simp [List.append_assoc]
      have hA'len : (A ++ le32 uprev.length ++ uprev).length
          = A.length + 4 + uprev.length := by
        simp [le32_length]
        omega
      have hbyte : byteAt ((A ++ le32 uprev.length ++ uprev)
          ++ scAssemble (u :: rest)) (A.length + 4 + uprev.length + 4)
          = byteAt u 0 := by
        rw [byteAt_shift' (A ++ le32 uprev.length ++ uprev)
          (scAssemble (u :: rest)) (A.length + 4 + uprev.length + 4) 4
          (by omega)]
        rw [scAssemble_cons, List.append_assoc]
        rw [byteAt_shift' nalStartCode (u ++ scAssemble rest) 4 0 (by rfl)]
        exact byteAt_append_left u (scAssemble rest) 0 (by omega)
      rw [cnuLoop]
      rw [if_pos hp, hmatch]
      simp only [if_true]
      rw [hbuf1, hbyte]
      cases rest with
      | nil =>
        rw [lenInitAssemble_single, lastUnitPos_single]
        have hb1len : ((A ++ le32 uprev.length ++ uprev)
            ++ scAssemble [u]).length = A.length + 4 + uprev.length
              + (4 + u.length) := by
          simp only [List.length_append, hA'len]
          rw [hSCu]
          simp [scAssemble]
        have hfinal : (A ++ le32 uprev.length ++ uprev) ++ scAssemble [u]
            = A ++ le32 uprev.length ++ uprev ++ (nalStartCode ++ u) := by
          simp [scAssemble, List.append_assoc]
        by_cases hv : byteAt u 0 % 32 ≤ 5
        · rw [if_pos hv, hfinal]
          rw [show A.length + 4 + uprev.length + 0
              = A.length + 4 + uprev.length by omega]
        · rw [if_neg hv]
          have hd : f = (f - (u.length - 1)) + (u.length - 1) := by
            rw [hSCu] at hfuel
            simp [scAssemble] at hfuel
            omega
          rw [hd]
          rw [cnuLoop_scan ((A ++ le32 uprev.length ++ uprev)
            ++ scAssemble [u]) (some (A.length + 4 + uprev.length))
            (u.length - 1) (f - (u.length - 1))
            (A.length + 4 + uprev.length + 4 + 1)
            (by
              intro x hx1 hx2
              rw [listMatch_shift' (A ++ le32 uprev.length ++ uprev)
                (scAssemble [u]) x (x - (A.length + 4 + uprev.length))
                nalStartCode (by omega)]
              exact no_match_interior u [] hstray
                (x - (A.length + 4 + uprev.length)) (by omega) (by omega))
            (by rw [hb1len]; omega)]
          rw [cnuLoop_at_end 4 _ _ _ _ (by rw [hb1len]; omega)]
          rw [hfinal]
          rw [show A.length + 4 + uprev.length + 0
              = A.length + 4 + uprev.length by omega]
      | cons v rest2 =>
        have hvcl2 := nonVCLInit_cons u v rest2 hvcl
        have hvne : ¬ byteAt u 0 % 32 ≤ 5 := by omega
        rw [if_neg hvne]
        have hb1len : ((A ++ le32 uprev.length ++ uprev)
            ++ scAssemble (u :: v :: rest2)).length
            = A.length + 4 + uprev.length
              + (4 + u.length + (scAssemble (v :: rest2)).length) := by
          simp only [List.length_append, hA'len]
          rw [hSCu]
        have hd : f = (f - (u.length - 1)) + (u.length - 1) := by
          rw [hSCu] at hfuel
          omega
        rw [hd]
        rw [cnuLoop_scan ((A ++ le32 uprev.length ++ uprev)
          ++ scAssemble (u :: v :: rest2))
          (some (A.length + 4 + uprev.length))
          (u.length - 1) (f - (u.length - 1))
          (A.length + 4 + uprev.length + 4 + 1)
          (by
            intro x hx1 hx2
            rw [listMatch_shift' (A ++ le32 uprev.length ++ uprev)
              (scAssemble (u :: v :: rest2)) x
              (x - (A.length + 4 + uprev.length)) nalStartCode (by omega)]
            exact no_match_interior u (v :: rest2) hstray
              (x - (A.length + 4 + uprev.length)) (by omega) (by omega))
          (by rw [hb1len]; omega)]
        have hpos2 : A.length + 4 + uprev.length + 4 + 1 + (u.length - 1)
            = (A ++ le32 uprev.length ++ uprev).length + 4 + u.length := by
          rw [hA'len]
          omega
        have hshape : (A ++ le32 uprev.length ++ uprev)
            ++ scAssemble (u :: v :: rest2)
            = (A ++ le32 uprev.length ++ uprev) ++ nalStartCode ++ u
              ++ scAssemble (v :: rest2) := by
          rw [scAssemble_cons]
          simp [List.append_assoc]
        have hns : (some (A.length + 4 + uprev.length) : Option Nat)
            = some (A ++ le32 uprev.length ++ uprev).length := by
          rw [hA'len]
        rw [hpos2, hshape, hns]
        rw [ih (A ++ le32 uprev.length ++ uprev) u (f - (u.length - 1))
          (by simp) (fun w hw => hnonempty w (List.mem_cons_of_mem u hw))
          hvcl2.2 (strayFree_tail u (v :: rest2) hstray)
          (by rw [hSCu] at hfuel; omega)]
        rw [lenInitAssemble_cons, lastUnitPos_cons]
        simp only [Prod.mk.injEq]
        constructor
        · simp [List.append_assoc]
        · rw [hA'len]
          congr 1
          omega

/-- ConvertNalUnits on a start-code assembly with nonempty units, all
leading units non-VCL and no stray start codes, produces the
little-endian length-prefixed assembly. -/
theorem convertNalUnits_scAssemble (units : List (List Nat))
    (hne : units ≠ [])
    (hnonempty : ∀ u ∈ units, u ≠ [])
    (hvcl : nonVCLInit units = true)
    (hstray : strayFree units) :
    convertNalUnits .len32 (scAssemble units) = lenAssemble units := by
  cases units with
  | nil => exact absurd rfl hne
  | cons u rest =>
    have hulen : 1 ≤ u.length := by
      have := hnonempty u (List.mem_cons_self u rest)
      cases u with
      | nil => exact absurd rfl this
      | cons a as => simp
    have hSCu : (scAssemble (u :: rest)).length
        = 4 + u.length + (scAssemble rest).length := by
      rw [scAssemble_cons]
      simp [nalStartCode]
      omega
    have hp0 : 0 < (scAssemble (u :: rest)).length := by omega
    have hm0 : listMatch (scAssemble (u :: rest)) 0 (startCodeBytes 4)
        = true := by
      rw [startCodeBytes_four, scAssemble_cons, List.append_assoc]
      exact listMatch_prefix_true nalStartCode (u ++ scAssemble rest)
    have hbyte0 : byteAt (scAssemble (u :: rest)) (0 + 4 + 1 - 1)
        = byteAt u 0 := by
      rw [scAssemble_cons, List.append_assoc]
      rw [byteAt_shift' nalStartCode (u ++ scAssemble rest)
        (0 + 4 + 1 - 1) 0 (by rfl)]
      exact byteAt_append_left u (scAssemble rest) 0 (by omega)
    have hsplit := scAssemble_last_split (u :: rest) (by simp)
    unfold convertNalUnits
    simp only [nalStartSizeOf]
    rw [cnuLoop]
    rw [if_pos hp0, hm0]
    simp only [if_true, cnuWrite_none]
    have hbyte0' : byteAt (scAssemble (u :: rest)) (0 + 4) = byteAt u 0 := by
      simpa using hbyte0
    rw [hbyte0']
    cases rest with
    | nil =>
      have hlast : (lastUnit [u]).length = u.length := by
        rw [lastUnit_single]
      have hfin : writeAt (scAssemble [u]) 0
          (le32 ((scAssemble [u]).length - 0 - 4)) = lenAssemble [u] := by
        have hv : (scAssemble [u]).length - 0 - 4 = (lastUnit [u]).length := by
          rw [hsplit, lastUnitPos_single]
          omega
        rw [hv]
        have hw := lenInit_final_write [u] [] (by simp)
        simp only [List.nil_append, List.length_nil, Nat.zero_add,
          lastUnitPos_single] at hw
        have hsc : scAssemble [u] = lenInitAssemble [u] := by
          rw [lenInitAssemble_single]
          simp [scAssemble]
        rw [hsc]
        exact hw
      by_cases hv : byteAt u 0 % 32 ≤ 5
      · rw [if_pos hv]
        exact hfin
      · rw [if_neg hv]
        have hd : (scAssemble [u]).length
            = ((scAssemble [u]).length - (u.length - 1)) + (u.length - 1) := by
          rw [hSCu]
          simp [scAssemble]
          omega
        rw [hd]
        rw [cnuLoop_scan (scAssemble [u]) (some 0) (u.length - 1)
          ((scAssemble [u]).length - (u.length - 1)) (0 + 4 + 1)
          (by
            intro x hx1 hx2
            exact no_match_interior u [] hstray x (by omega) (by omega))
          (by rw [hSCu]; simp [scAssemble]; omega)]
        rw [cnuLoop_at_end 4 _ _ _ _ (by rw [hSCu]; simp [scAssemble]; omega)]
        rw [← hd]
        exact hfin
    | cons v rest2 =>
      have hvcl2 := nonVCLInit_cons u v rest2 hvcl
      have hvne : ¬ byteAt u 0 % 32 ≤ 5 := by omega
      rw [if_neg hvne]
      have hd : (scAssemble (u :: v :: rest2)).length
          = ((scAssemble (u :: v :: rest2)).length - (u.length - 1))
            + (u.length - 1) := by
        rw [hSCu]
        omega
      rw [hd]
      rw [cnuLoop_scan (scAssemble (u :: v :: rest2)) (some 0) (u.length - 1)
        ((scAssemble (u :: v :: rest2)).length - (u.length - 1)) (0 + 4 + 1)
        (by
          intro x hx1 hx2
          exact no_match_interior u (v :: rest2) hstray x (by omega)
            (by omega))
        (by rw [hSCu]; omega)]
      have hshape : scAssemble (u :: v :: rest2)
          = ([] : List Nat) ++ nalStartCode ++ u ++ scAssemble (v :: rest2) := by
        rw [scAssemble_cons]
        simp
      have hpos : 0 + 4 + 1 + (u.length - 1)
          = ([] : List Nat).length + 4 + u.length := by
        simp
        omega
      have hns0 : (some 0 : Option Nat) = some ([] : List Nat).length := rfl
      rw [hpos, hshape, hns0]
      have hlenY : (([] : List Nat) ++ nalStartCode ++ u
          ++ scAssemble (v :: rest2)).length
          = 4 + u.length + (scAssemble (v :: rest2)).length := by
        simp [nalStartCode]
        omega
      rw [cnuLoop_units (v :: rest2) [] u
        ((([] : List Nat) ++ nalStartCode ++ u
          ++ scAssemble (v :: rest2)).length - (u.length - 1))
        (by simp) (fun w hw => hnonempty w (List.mem_cons_of_mem u hw))
        hvcl2.2 (strayFree_tail u (v :: rest2) hstray)
        (by rw [hlenY]; omega)]
      rw [← hshape, ← hd]
      show writeAt (([] : List Nat) ++ le32 u.length ++ u
          ++ lenInitAssemble (v :: rest2))
          (([] : List Nat).length + 4 + u.length + lastUnitPos (v :: rest2))
          (le32 ((scAssemble (u :: v :: rest2)).length
            - (([] : List Nat).length + 4 + u.length
              + lastUnitPos (v :: rest2)) - 4))
        = lenAssemble (u :: v :: rest2)
      have hq : ([] : List Nat).length + 4 + u.length
          + lastUnitPos (v :: rest2)
          = (le32 u.length ++ u).length + lastUnitPos (v :: rest2) := by
        simp [le32_length]
      have hbuff : ([] : List Nat) ++ le32 u.length ++ u
          ++ lenInitAssemble (v :: rest2)
          = (le32 u.length ++ u) ++ lenInitAssemble (v :: rest2) := by
        simp [List.append_assoc]
      have hval : (scAssemble (u :: v :: rest2)).length
          - (([] : List Nat).length + 4 + u.length
            + lastUnitPos (v :: rest2)) - 4
          = (lastUnit (v :: rest2)).length := by
        rw [hsplit, lastUnitPos_cons, lastUnit_cons]
        simp
        omega
      rw [hval, hq, hbuff]
      rw [lenInit_final_write (v :: rest2) (le32 u.length ++ u) (by simp)]
      simp [lenAssemble_cons, List.append_assoc]

/-- Claim C3 counterexample: the encode-direction rewrite is not the
inverse of the decode-direction rewrite for every buffer of NAL units.
Take two units of length 2 whose first unit starts with a VCL nal type
(byte 05): the decode rewrite turns both 4-byte big-endian length
fields (value 2) into start codes, but the encode rewrite breaks at the
very first unit (VCL) and sizes it against the end of the buffer,
writing 8 over the first start code; neither length field of the
result holds the original value 2 under either byte order. -/
theorem convert_nal_inverse_cex :
    decodeReframe .len32 [0, 0, 0, 2, 5, 170, 0, 0, 0, 2, 65, 187]
        = some [0, 0, 0, 1, 5, 170, 0, 0, 0, 1, 65, 187] ∧
    convertNalUnits .len32 [0, 0, 0, 1, 5, 170, 0, 0, 0, 1, 65, 187]
        = [8, 0, 0, 0, 5, 170, 0, 0, 0, 1, 65, 187] ∧
    ([8, 0, 0, 0] : List Nat) ≠ le32 2 ∧
    ([8, 0, 0, 0] : List Nat) ≠ be32 2 := by
  refine ⟨rfl, rfl, ?_, ?_⟩ <;> decide

/-- Claim C3 (amended): the encode-direction rewrite inverts the
decode-direction rewrite (reproducing every original length value, now
written little endian as Gecko expects) for buffers of one or more
nonempty NAL units, none of length 1, in which every unit except the
last starts with a non-VCL nal type and the start code occurs only at
unit boundaries; without the non-VCL restriction the scan stops early
and mis-sizes the first VCL unit, as the counterexample shows. -/
theorem encode_decode_reframe_inverse (units : List (List Nat))
    (hne : units ≠ [])
    (hnonempty : ∀ u ∈ units, u ≠ [])
    (h1 : ∀ u ∈ units, u.length ≠ 1)
    (hsize : (nalAssemble32 units).length < 2 ^ 32)
    (hvcl : nonVCLInit units = true)
    (hstray : strayFree units) :
    decodeReframe .len32 (nalAssemble32 units) = some (scAssemble units) ∧
    convertNalUnits .len32 (scAssemble units) = lenAssemble units := by
  constructor
  · unfold decodeReframe
    have hfuel : units.length ≤ (nalAssemble32 units).length + 1 := by
      have h2 := units_le_sum units
      rw [← nalAssemble32_length] at h2
      omega
    have h := decodeLoop_units units [] ((nalAssemble32 units).length + 1)
      hfuel h1 (by simpa using hsize)
    simpa using h
  · exact convertNalUnits_scAssemble units hne hnonempty hvcl hstray

/-- Witness for the amended C3 theorem: three units, the two leading
ones non-VCL (types 7 and 8), the last a VCL slice (type 5). -/
theorem encode_decode_reframe_inverse_witness :
    decodeReframe .len32 (nalAssemble32 [[103, 170], [104, 187], [101, 204]])
        = some (scAssemble [[103, 170], [104, 187], [101, 204]]) ∧
    convertNalUnits .len32 (scAssemble [[103, 170], [104, 187], [101, 204]])
        = lenAssemble [[103, 170], [104, 187], [101, 204]] :=
  encode_decode_reframe_inverse [[103, 170], [104, 187], [101, 204]]
    (by decide) (by decide) (by decide) (by decide) (by decide)
    (by
      unfold strayFree
      decide)

/-! ## Duration cache

std::map from int64 presentation timestamp to uint64 duration,
modelled as an association list with unique keys (m_dur). -/

/-- m_dur[k] = v (std::map operator[] assignment: replace or append). -/
def durInsert : List (Int × Nat) → Int → Nat → List (Int × Nat)
  | [], k, v => [(k, v)]
  | (a, b) :: rest, k, v =>
    if k = a then (k, v) :: rest else (a, b) :: durInsert rest k v

/-- m_dur.find(k). -/
def durFind : List (Int × Nat) → Int → Option Nat
  | [], _ => none
  | (a, b) :: rest, k => if k = a then some b else durFind rest k

/-- m_dur.erase(iterator found for k): removes the entry with key k. -/
def durErase : List (Int × Nat) → Int → List (Int × Nat)
  | [], _ => []
  | (a, b) :: rest, k => if k = a then rest else (a, b) :: durErase rest k

theorem durErase_sublist (l : List (Int × Nat)) (k : Int) :
    List.Sublist (durErase l k) l := by
  induction l with
  | nil => simp [durErase]
  | cons p rest ih =>
    obtain ⟨a, b⟩ := p
    unfold durErase
    by_cases h : k = a
    · rw [if_pos h]
      exact List.sublist_cons_self (a, b) rest
    · rw [if_neg h]
      exact List.Sublist.cons₂ (a, b) ih

theorem durFind_eq_of_mem (l : List (Int × Nat)) (k : Int) (v : Nat)
    (hnodup : (l.map Prod.fst).Nodup) (hmem : (k, v) ∈ l) :
    durFind l k = some v := by
  induction l with
  | nil => simp at hmem
  | cons p rest ih =>
    obtain ⟨a, b⟩ := p
    simp only [List.map_cons, List.nodup_cons] at hnodup
    unfold durFind
    by_cases h : k = a
    · rw [if_pos h]
      rcases List.mem_cons.mp hmem with heq | htail
      · simp at heq
        rw [heq.2]
      · exfalso
        apply hnodup.1
        have : k ∈ rest.map Prod.fst := by
          exact List.mem_map.mpr ⟨(k, v), htail, rfl⟩
        rw [← h]
        exact this
    · rw [if_neg h]
      apply ih hnodup.2
      rcases List.mem_cons.mp hmem with heq | htail
      · exfalso
        apply h
        have := congrArg Prod.fst heq
        simpa using this
      · exact htail

theorem durErase_cons_perm (l : List (Int × Nat)) (k : Int) (v : Nat)
    (hnodup : (l.map Prod.fst).Nodup) (hmem : (k, v) ∈ l) :
    l.Perm ((k, v) :: durErase l k) := by
  induction l with
  | nil => simp at hmem
  | cons p rest ih =>
    obtain ⟨a, b⟩ := p
    simp only [List.map_cons, List.nodup_cons] at hnodup
    unfold durErase
    by_cases h : k = a
    · rw [if_pos h]
      have hbv : b = v := by
        rcases List.mem_cons.mp hmem with heq | htail
        · simp at heq
          exact heq.2.symm
        · exfalso
          apply hnodup.1
          rw [← h]
          exact List.mem_map.mpr ⟨(k, v), htail, rfl⟩
      subst hbv
      subst h
      exact List.Perm.refl _
    · rw [if_neg h]
      have htail : (k, v) ∈ rest := by
        rcases List.mem_cons.mp hmem with heq | htail
        · exfalso
          apply h
          have := congrArg Prod.fst heq
          simpa using this
        · exact htail
      have hperm := ih hnodup.2 htail
      have hswap : List.Perm ((a, b) :: (k, v) :: durErase rest k)
          ((k, v) :: (a, b) :: durErase rest k) := List.Perm.swap _ _ _
      exact (hperm.cons (a, b)).trans hswap

theorem durInsert_fresh (l : List (Int × Nat)) (k : Int) (v : Nat)
    (h : k ∉ l.map Prod.fst) : durInsert l k v = l ++ [(k, v)] := by
  induction l with
  | nil => rfl
  | cons p rest ih =>
    obtain ⟨a, b⟩ := p
    simp only [List.map_cons, List.mem_cons] at h
    unfold durInsert
    rw [if_neg (by tauto)]
    rw [ih (by tauto)]
    simp

/-! ## Decoder session model (DroidVideoDecoder, gmp-droid.cpp)

Each method returns the successor state and the list of host callbacks
it fires (directly or by posting to the main thread).  The platform
API is always available in the model.  pendingResetM counts Reset_m
tasks posted to the main thread and not yet run. -/

/-- Host-facing callbacks (GMPVideoDecoderCallback). -/
inductive HostCb where
  | decoded (ts : Int) (dur : Nat)
  | inputDataExhausted
  | drainComplete
  | resetComplete
  | errorCb (e : GMPErr)
  deriving DecidableEq, Repr

/-- Stream configuration (the GMPVideoCodec fields gmp-droid reads). -/
structure StreamConfig where
  codecType : GMPCodecType
  width : Nat
  height : Nat
  maxFramerate : Nat
  codecSpecificSize : Nat
  startBitrate : Nat
  deriving DecidableEq, Repr

/-- A coded frame handed to Decode (GMPVideoEncodedFrame subset). -/
structure CodedFrame where
  buf : List Nat
  bufferType : GMPBufferType
  ts : Int
  duration : Nat
  frameType : GMPFrameType
  deriving DecidableEq, Repr

/-- A frame posted to the submit worker thread. -/
structure SubmittedFrame where
  bytes : List Nat
  ts : Int
  sync : Bool
  deriving DecidableEq, Repr

/-- Environment: outcomes of the droidmedia and host-allocator calls
the session makes. -/
structure Env where
  supportedDec : GMPCodecType → Bool
  supportedEnc : GMPCodecType → Bool
  threadOk : Bool
  codecOk : Bool
  converterOk : Bool
  frameOk : Bool
  convertOk : Bool
  encColorFormats : List Nat
  fmtPlanar : Nat
  fmtSemiPlanar : Nat

/-- The mutable state of a DroidVideoDecoder. -/
structure DecoderState where
  callback : Bool
  host : Bool
  codec : Bool
  conv : Bool
  dropConverter : Bool
  draining : Bool
  resetting : Bool
  processing : Bool
  submitThread : Bool
  mtype : Option GMPCodecType
  mwidth : Nat
  mheight : Nat
  mfps : Nat
  mcodecDataSize : Nat
  dur : List (Int × Nat)
  submitQueue : List SubmittedFrame
  pendingResetM : Nat
  deriving DecidableEq, Repr

/-- Freshly constructed DroidVideoDecoder (mutex creation succeeded). -/
def initialDecoderState : DecoderState where
  callback := false
  host := true
  codec := false
  conv := false
  dropConverter := false
  draining := false
  resetting := false
  processing := false
  submitThread := false
  mtype := none
  mwidth := 0
  mheight := 0
  mfps := 0
  mcodecDataSize := 0
  dur := []
  submitQueue := []
  pendingResetM := 0

/-- DroidVideoDecoder::Error: fires the Error callback when the host
callback (and the platform API, always present here) exists. -/
def errorEmit (s : DecoderState) (e : GMPErr) : List HostCb :=
  if s.callback then [.errorCb e] else []

/-- DroidVideoDecoder::InitDecode.  Validates the codec kind, reports
GMPNotImplementedErr when the device lacks support (without returning,
unlike the encoder), then fills in the remaining metadata. -/
def initDecode (env : Env) (cfg : StreamConfig) (s : DecoderState) :
    DecoderState × List HostCb :=
  let s0 := { s with callback := true,
                     mtype := none, mwidth := 0, mheight := 0, mfps := 0,
                     mcodecDataSize := 0 }
  match cfg.codecType with
  | .unknownCodec => (s0, errorEmit s0 .notImplementedErr)
  | ct =>
    let s1 := { s0 with mtype := some ct }
    let errs := if env.supportedDec ct then []
      else errorEmit s1 .notImplementedErr
    let s2 := { s1 with mwidth := cfg.width, mheight := cfg.height }
    let s3 := if cfg.maxFramerate ≠ 0 then { s2 with mfps := cfg.maxFramerate }
      else s2
    let s4 := if cfg.codecSpecificSize ≠ 0 ∧ ct = .h264 then
        { s3 with mcodecDataSize := cfg.codecSpecificSize - 1 }
      else { s3 with mcodecDataSize := 0 }
    (s4, errs)

/-- The tail of Decode after the reframing loop: buffer copy, duration
cache insert keyed by the timestamp, worker thread creation on first
use (GMPGenericErr on failure), and the post to the worker. -/
def decodeSubmit (env : Env) (f : CodedFrame) (s : DecoderState) :
    DecoderState × List HostCb :=
  let s1 := { s with dur := durInsert s.dur f.ts f.duration }
  if s1.submitThread || env.threadOk then
    ({ s1 with submitThread := true,
               submitQueue := s1.submitQueue ++
                 [⟨f.buf, f.ts, decide (f.frameType = .keyFrame)⟩] }, [])
  else
    (s1, errorEmit s1 .genericErr)

/-- DroidVideoDecoder::Decode: reframes H264 length-prefixed input in
place (GMPDecodeErr aborts before anything else happens), then caches
the duration and posts the submission to the worker thread. -/
def decode (env : Env) (f : CodedFrame) (s : DecoderState) :
    DecoderState × List HostCb :=
  if s.mtype = some .h264 ∧ f.bufferType ≠ .single then
    match decodeReframe f.bufferType f.buf with
    | none => (s, errorEmit s .decodeErr)
    | some buf2 => decodeSubmit env { f with buf := buf2 } s
  else
    decodeSubmit env f s

/-- DroidVideoDecoder::CreateCodec, reduced to its observable effects:
success resets the draining flag, failure reports GMPDecodeErr. -/
def createCodec (env : Env) (s : DecoderState) :
    DecoderState × List HostCb × Bool :=
  if env.codecOk then
    ({ s with codec := true, draining := false }, [], true)
  else
    (s, errorEmit s .decodeErr, false)

/-- The enqueue tail of SubmitBufferThread: dropped silently while
resetting; otherwise the hardware enqueue happens and input capacity
is signalled unless draining started meanwhile. -/
def submitQueueStep (s : DecoderState) (errs : List HostCb) :
    DecoderState × List HostCb :=
  if s.resetting then (s, errs)
  else
    (s, errs ++ (if ¬ s.draining ∧ s.callback then [.inputDataExhausted]
      else []))

/-- DroidVideoDecoder::SubmitBufferThread: drops the buffer while
draining or when lazy codec creation fails. -/
def submitBufferThread (env : Env) (_fr : SubmittedFrame)
    (s : DecoderState) : DecoderState × List HostCb :=
  if s.draining then
    (s, [])
  else if ¬ s.codec then
    match createCodec env s with
    | (s1, errs, false) => (s1, errs)
    | (s1, errs, true) => submitQueueStep s1 errs
  else
    submitQueueStep s []

/-- DroidVideoDecoder::Drain: immediate DrainComplete when no codec
handle exists or no frames are in flight, otherwise mark draining. -/
def drain (s : DecoderState) : DecoderState × List HostCb :=
  if ¬ s.codec ∨ s.dur.length = 0 then
    ({ s with draining := false }, [.drainComplete])
  else
    ({ s with draining := true }, [])

/-- DroidVideoDecoder::Reset: a no-op while a reset is already pending;
deferred to the delivery path while a frame is being processed;
otherwise posts Reset_m to the main thread. -/
def reset (s : DecoderState) : DecoderState × List HostCb :=
  if s.resetting then (s, [])
  else
    let s1 := { s with resetting := true }
    if s1.processing then (s1, [])
    else ({ s1 with pendingResetM := s1.pendingResetM + 1 }, [])

/-- DroidVideoDecoder::ResetCodec: drains and destroys the hardware
codec, joins the worker thread, clears the duration cache and requests
a fresh converter. -/
def resetCodec (s : DecoderState) : DecoderState :=
  { s with submitThread := false, codec := false, dur := [],
           dropConverter := true }

/-- DroidVideoDecoder::Reset_m (main thread): destroys the codec when
present, clears the flags and fires ResetComplete if the host callback
is still attached. -/
def resetM (s : DecoderState) : DecoderState × List HostCb :=
  let s1 := if s.codec then resetCodec s else s
  let s2 := { s1 with draining := false, resetting := false }
  if s2.callback then (s2, [.resetComplete]) else (s2, [])

/-- DroidVideoDecoder::DecodingComplete: drops the host references,
marks resetting and posts Reset_m. -/
def decodingComplete (s : DecoderState) : DecoderState × List HostCb :=
  ({ s with callback := false, host := false, resetting := true,
            pendingResetM := s.pendingResetM + 1 }, [])

/-- DroidVideoDecoder::ProcessFrame_m (main thread): configure the
converter if needed (fatal GMPDecodeErr when none matches), allocate
and convert the output frame, divide the hardware timestamp by 1000
(C++ int64 division truncates toward zero: Int.tdiv),
look up and consume the cached duration (0 when absent), deliver the
frame, and complete a pending drain once the cache is empty. -/
def processFrameM (env : Env) (hwts : Int) (s : DecoderState) :
    DecoderState × List HostCb :=
  let convOk := s.conv || env.converterOk
  let s1 := { s with conv := convOk }
  if ¬ convOk then (s1, errorEmit s1 .decodeErr)
  else if ¬ env.frameOk then (s1, errorEmit s1 .allocErr)
  else if ¬ env.convertOk then (s1, errorEmit s1 .allocErr)
  else
    let ts := Int.tdiv hwts 1000
    let found := durFind s1.dur ts
    let d := found.getD 0
    let s2 := match found with
      | some _ => { s1 with dur := durErase s1.dur ts }
      | none => s1
    if s2.dur.length = 0 ∧ s2.draining then
      ({ s2 with draining := false }, [.decoded ts d, .drainComplete])
    else
      (s2, [.decoded ts d])

/-- DroidVideoDecoder::ProcessFrame (hardware thread): drop the stale
converter when requested, discard the frame during reset or teardown,
otherwise deliver synchronously on the main context and afterwards
post Reset_m when a reset arrived during the delivery. -/
def processFrame (env : Env) (hwts : Int) (s : DecoderState) :
    DecoderState × List HostCb :=
  let s0 := if s.dropConverter then { s with conv := false, dropConverter := false }
    else s
  if s0.resetting ∨ ¬ s0.callback ∨ ¬ s0.host then (s0, [])
  else
    let s1 := { s0 with processing := true }
    let r := processFrameM env hwts s1
    let s2 := { r.1 with processing := false }
    ({ s2 with pendingResetM := s2.pendingResetM
        + (if s2.resetting then 1 else 0) }, r.2)

/-- DroidVideoDecoder::EOS (SignalEOS): posts DrainComplete to the main
thread and clears the duration cache (the draining flag is untouched). -/
def eos (s : DecoderState) : DecoderState × List HostCb :=
  ({ s with dur := [] }, [.drainComplete])

/-- Run Decode over a list of frames, concatenating the callbacks. -/
def decodeAll (env : Env) : List CodedFrame → DecoderState →
    DecoderState × List HostCb
  | [], s => (s, [])
  | f :: rest, s =>
    let r1 := decode env f s
    let r2 := decodeAll env rest r1.1
    (r2.1, r1.2 ++ r2.2)

/-- Run ProcessFrame over a list of hardware timestamps. -/
def deliverAll (env : Env) : List Int → DecoderState →
    DecoderState × List HostCb
  | [], s => (s, [])
  | t :: rest, s =>
    let r1 := processFrame env t s
    let r2 := deliverAll env rest r1.1
    (r2.1, r1.2 ++ r2.2)

/-- A steady-state decode session ready to receive and deliver frames. -/
def Ready (s : DecoderState) : Prop :=
  s.callback = true ∧ s.host = true ∧ s.conv = true ∧
  s.dropConverter = false ∧ s.resetting = false ∧ s.draining = false ∧
  s.processing = false

instance (s : DecoderState) : Decidable (Ready s) := by
  unfold Ready
  infer_instance

/-- An environment in which every external call succeeds and every
codec is reported supported. -/
def envAll : Env where
  supportedDec := fun _ => true
  supportedEnc := fun _ => true
  threadOk := true
  codecOk := true
  converterOk := true
  frameOk := true
  convertOk := true
  encColorFormats := [19]
  fmtPlanar := 19
  fmtSemiPlanar := 21

/-- A concrete ready steady-state session used by the witnesses. -/
def readyState : DecoderState :=
  { initialDecoderState with
      callback := true, conv := true, codec := true, submitThread := true,
      mtype := some .vp8 }

/-! ## Duration round trip (C1) -/

/-- A coded frame carrying only a timestamp and duration (single-unit
framing, so no reframing applies). -/
def mkFrame (t : Int) (d : Nat) : CodedFrame :=
  ⟨[], .single, t, d, .keyFrame⟩

theorem decode_mkFrame (env : Env) (ht : env.threadOk = true)
    (t : Int) (d : Nat) (s : DecoderState) :
    decode env (mkFrame t d) s
      = ({ s with
            dur := durInsert s.dur t d, submitThread := true,
            submitQueue := s.submitQueue ++ [⟨[], t, true⟩] }, []) := by
  obtain ⟨cb, ho, co, cv, dc, dr, rs, pr, st, mt, mw, mh, mf, mcd, du, sq, prm⟩ := s
  simp [decode, mkFrame, decodeSubmit, ht]

/-- One successful delivery in a ready session consumes exactly the
cached duration of its timestamp. -/
theorem processFrame_deliver (env : Env) (hf : env.frameOk = true)
    (hc : env.convertOk = true) (s : DecoderState) (t : Int) (d : Nat)
    (hready : Ready s)
    (hnodup : (s.dur.map Prod.fst).Nodup)
    (hmem : (t, d) ∈ s.dur) :
    processFrame env (1000 * t) s
      = ({ s with dur := durErase s.dur t, processing := false },
         [.decoded t d]) := by
  obtain ⟨hcb, hh, hcv, hdc, hrs, hdr, hpr⟩ := hready
  have hts : Int.tdiv (1000 * t) 1000 = t :=
    Int.mul_tdiv_cancel_left t (by norm_num)
  have hfind : durFind s.dur t = some d :=
    durFind_eq_of_mem s.dur t d hnodup hmem
  obtain ⟨cb, ho, co, cv, dc, dr, rs, pr, st, mt, mw, mh, mf, mcd, du, sq, prm⟩ := s
  simp only at hcb hh hcv hdc hrs hdr hpr hfind
  subst hcb hh hcv hdc hrs hdr hpr
  simp [processFrame, processFrameM, hts, hfind, hf, hc]

/-- Delivering the cached frames in any order returns each cached
duration and empties the cache. -/
theorem deliverAll_roundtrip (env : Env) (hf : env.frameOk = true)
    (hc : env.convertOk = true) :
    ∀ (order : List (Int × Nat)) (s : DecoderState),
      Ready s →
      (s.dur.map Prod.fst).Nodup →
      s.dur.Perm order →
      (deliverAll env (order.map (fun p => 1000 * p.1)) s).2
          = order.map (fun p => HostCb.decoded p.1 p.2) ∧
      (deliverAll env (order.map (fun p => 1000 * p.1)) s).1.dur = [] := by
  intro order
  induction order with
  | nil =>
    intro s _ _ hperm
    have hnil : s.dur = [] := List.Perm.eq_nil hperm
    simp [deliverAll, hnil]
  | cons p rest ih =>
    obtain ⟨t, d⟩ := p
    intro s hready hnodup hperm
    have hmem : (t, d) ∈ s.dur :=
      hperm.mem_iff.mpr (List.mem_cons_self _ _)
    have hstep := processFrame_deliver env hf hc s t d hready hnodup hmem
    have hperm2 : (durErase s.dur t).Perm rest := by
      have h1 := durErase_cons_perm s.dur t d hnodup hmem
      exact (h1.symm.trans hperm).cons_inv
    have hnodup2 : ((durErase s.dur t).map Prod.fst).Nodup :=
      List.Nodup.sublist (List.Sublist.map Prod.fst (durErase_sublist s.dur t))
        hnodup
    have hready2 : Ready { s with
        dur := durErase s.dur t, processing := false } := by
      obtain ⟨h1, h2, h3, h4, h5, h6, _⟩ := hready
      exact ⟨h1, h2, h3, h4, h5, h6, rfl⟩
    have hih := ih ({ s with dur := durErase s.dur t, processing := false })
      hready2 (by simpa using hnodup2) (by simpa using hperm2)
    simp only [List.map_cons, deliverAll, hstep]
    exact ⟨by simp [hih.1], hih.2⟩

/-- Running Decode over fresh-keyed frames appends their durations to
the cache, fires no callback, and leaves the session flags alone. -/
theorem decodeAll_mkFrames (env : Env) (ht : env.threadOk = true) :
    ∀ (frames : List (Int × Nat)) (s : DecoderState),
      (∀ p ∈ frames, p.1 ∉ s.dur.map Prod.fst) →
      (frames.map Prod.fst).Nodup →
      (decodeAll env (frames.map (fun p => mkFrame p.1 p.2)) s).2 = [] ∧
      (decodeAll env (frames.map (fun p => mkFrame p.1 p.2)) s).1.dur
        = s.dur ++ frames ∧
      (decodeAll env (frames.map (fun p => mkFrame p.1 p.2)) s).1.callback
        = s.callback ∧
      (decodeAll env (frames.map (fun p => mkFrame p.1 p.2)) s).1.host
        = s.host ∧
      (decodeAll env (frames.map (fun p => mkFrame p.1 p.2)) s).1.conv
        = s.conv ∧
      (decodeAll env (frames.map (fun p => mkFrame p.1 p.2)) s).1.dropConverter
        = s.dropConverter ∧
      (decodeAll env (frames.map (fun p => mkFrame p.1 p.2)) s).1.resetting
        = s.resetting ∧
      (decodeAll env (frames.map (fun p => mkFrame p.1 p.2)) s).1.draining
        = s.draining ∧
      (decodeAll env (frames.map (fun p => mkFrame p.1 p.2)) s).1.processing
        = s.processing := by
  intro frames
  induction frames with
  | nil =>
    intro s _ _
    simp [decodeAll]
  | cons p rest ih =>
    obtain ⟨t, d⟩ := p
    intro s hfresh hnodup
    have hstep := decode_mkFrame env ht t d s
    have hins : durInsert s.dur t d = s.dur ++ [(t, d)] :=
      durInsert_fresh s.dur t d (hfresh (t, d) (List.mem_cons_self _ _))
    simp only [List.map_cons, List.nodup_cons] at hnodup
    have hih := ih ({ s with
        dur := durInsert s.dur t d,
        submitThread := true,
        submitQueue := s.submitQueue ++ [⟨[], t, true⟩] })
      (by
        intro q hq
        simp only [hins, List.map_append, List.mem_append]
        rintro (hin | hin)
        · exact hfresh q (List.mem_cons_of_mem _ hq) hin
        · simp at hin
          apply hnodup.1
          rw [← hin]
          exact List.mem_map.mpr ⟨q, hq, rfl⟩)
      hnodup.2
    simp only [List.map_cons, decodeAll, hstep]
    refine ⟨by simp [hih.1], ?_, hih.2.2.1, hih.2.2.2.1, hih.2.2.2.2.1,
      hih.2.2.2.2.2.1, hih.2.2.2.2.2.2.1, hih.2.2.2.2.2.2.2.1,
      hih.2.2.2.2.2.2.2.2⟩
    rw [hih.2.1]
    simp [hins]

/-- Claim C1: for a decode session, submitting N frames with pairwise
distinct timestamps and durations, then receiving decoded output for
each of them in any hardware-determined order (hardware timestamps in
nanoseconds, converted by the division by 1000 in ProcessFrame_m),
fires no callback during submission, delivers each frame with exactly
its cached duration (looked up and removed from the DurationCache),
and leaves the DurationCache empty after the last delivery. -/
theorem duration_roundtrip (env : Env) (frames order : List (Int × Nat))
    (s : DecoderState)
    (ht : env.threadOk = true) (hf : env.frameOk = true)
    (hc : env.convertOk = true)
    (hready : Ready s) (hdur0 : s.dur = [])
    (hnodup : (frames.map Prod.fst).Nodup)
    (hperm : frames.Perm order) :
    (decodeAll env (frames.map (fun p => mkFrame p.1 p.2)) s).2 = [] ∧
    (decodeAll env (frames.map (fun p => mkFrame p.1 p.2)) s).1.dur
      = frames ∧
    (deliverAll env (order.map (fun p => 1000 * p.1))
        (decodeAll env (frames.map (fun p => mkFrame p.1 p.2)) s).1).2
      = order.map (fun p => HostCb.decoded p.1 p.2) ∧
    (deliverAll env (order.map (fun p => 1000 * p.1))
        (decodeAll env (frames.map (fun p => mkFrame p.1 p.2)) s).1).1.dur
      = [] := by
  have hdec := decodeAll_mkFrames env ht frames s
    (by intro q _; rw [hdur0]; simp) hnodup
  obtain ⟨ho1, hodur, hocb, hoh, hocv, hodc, hors, hodr, hopr⟩ := hdec
  rw [hdur0] at hodur
  simp only [List.nil_append] at hodur
  obtain ⟨h1, h2, h3, h4, h5, h6, h7⟩ := hready
  have hready2 : Ready (decodeAll env
      (frames.map (fun p => mkFrame p.1 p.2)) s).1 := by
    refine ⟨?_, ?_, ?_, ?_, ?_, ?_, ?_⟩ <;>
      simp [hocb, hoh, hocv, hodc, hors, hodr, hopr, h1, h2, h3, h4, h5, h6, h7]
  have hdel := deliverAll_roundtrip env hf hc order
    (decodeAll env (frames.map (fun p => mkFrame p.1 p.2)) s).1
    hready2 (by rw [hodur]; exact hnodup) (by rw [hodur]; exact hperm)
  exact ⟨ho1, hodur, hdel.1, hdel.2⟩

/-- Witness for the C1 theorem: two frames delivered in reverse order. -/
theorem duration_roundtrip_witness :
    (decodeAll envAll ([(7, 40), (9, 41)].map (fun p => mkFrame p.1 p.2))
        readyState).2 = [] ∧
    (decodeAll envAll ([(7, 40), (9, 41)].map (fun p => mkFrame p.1 p.2))
        readyState).1.dur = [(7, 40), (9, 41)] ∧
    (deliverAll envAll ([(9, 41), (7, 40)].map (fun p => 1000 * p.1))
        (decodeAll envAll ([(7, 40), (9, 41)].map (fun p => mkFrame p.1 p.2))
          readyState).1).2
      = [(9, 41), (7, 40)].map (fun p => HostCb.decoded p.1 p.2) ∧
    (deliverAll envAll ([(9, 41), (7, 40)].map (fun p => 1000 * p.1))
        (decodeAll envAll ([(7, 40), (9, 41)].map (fun p => mkFrame p.1 p.2))
          readyState).1).1.dur = [] :=
  duration_roundtrip envAll [(7, 40), (9, 41)] [(9, 41), (7, 40)] readyState
    rfl rfl rfl (by decide) rfl (by decide) (by decide)

/-! ## Drain (C4) -/

/-- A delivery in a ready-but-draining session: DrainComplete is fired
exactly when the duration cache drains to empty. -/
theorem processFrame_deliver_draining (env : Env) (hf : env.frameOk = true)
    (hc : env.convertOk = true) (s : DecoderState) (t : Int) (d : Nat)
    (hcb : s.callback = true) (hh : s.host = true) (hcv : s.conv = true)
    (hdc : s.dropConverter = false) (hrs : s.resetting = false)
    (hpr : s.processing = false) (hdr : s.draining = true)
    (hnodup : (s.dur.map Prod.fst).Nodup)
    (hmem : (t, d) ∈ s.dur) :
    processFrame env (1000 * t) s
      = if durErase s.dur t = [] then
          ({ s with
              dur := durErase s.dur t, draining := false,
              processing := false },
           [.decoded t d, .drainComplete])
        else
          ({ s with dur := durErase s.dur t, processing := false },
           [.decoded t d]) := by
  have hts : Int.tdiv (1000 * t) 1000 = t :=
    Int.mul_tdiv_cancel_left t (by norm_num)
  have hfind : durFind s.dur t = some d :=
    durFind_eq_of_mem s.dur t d hnodup hmem
  obtain ⟨cb, ho, co, cv, dc, dr, rs, pr, st, mt, mw, mh, mf, mcd, du, sq, prm⟩ := s
  simp only at hcb hh hcv hdc hrs hdr hpr hfind ⊢
  subst hcb hh hcv hdc hrs hdr hpr
  by_cases hemp : durErase du t = []
  · simp [processFrame, processFrameM, hts, hfind, hf, hc, hemp,
      List.length_eq_zero]
  · simp [processFrame, processFrameM, hts, hfind, hf, hc, hemp,
      List.length_eq_zero]

/-- Claim C4: Drain fires DrainComplete immediately when no hardware
codec handle exists or the DurationCache is empty; otherwise it marks
the session draining and fires nothing; afterwards a delivery fires
DrainComplete exactly when it empties the cache, and a hardware
end-of-stream fires DrainComplete (and clears the cache). -/
theorem drain_behaviour :
    (∀ s : DecoderState, s.codec = false ∨ s.dur.length = 0 →
      drain s = ({ s with draining := false }, [.drainComplete])) ∧
    (∀ s : DecoderState, s.codec = true → s.dur.length ≠ 0 →
      drain s = ({ s with draining := true }, [])) ∧
    (∀ (env : Env) (s : DecoderState) (t : Int) (d : Nat),
      env.frameOk = true → env.convertOk = true →
      s.callback = true → s.host = true → s.conv = true →
      s.dropConverter = false → s.resetting = false → s.processing = false →
      s.draining = true →
      (s.dur.map Prod.fst).Nodup → (t, d) ∈ s.dur →
      ((processFrame env (1000 * t) s).2 = [.decoded t d, .drainComplete]
          ↔ durErase s.dur t = []) ∧
      (¬ durErase s.dur t = [] →
        (processFrame env (1000 * t) s).2 = [.decoded t d])) ∧
    (∀ s : DecoderState, eos s = ({ s with dur := [] }, [.drainComplete])) := by
  refine ⟨?_, ?_, ?_, ?_⟩
  · intro s h
    unfold drain
    rw [if_pos]
    rcases h with h | h
    · left
      simp [h]
    · right
      exact h
  · intro s h1 h2
    unfold drain
    rw [if_neg]
    simp [h1, h2]
  · intro env s t d hf hc hcb hh hcv hdc hrs hpr hdr hnodup hmem
    have hstep := processFrame_deliver_draining env hf hc s t d hcb hh hcv
      hdc hrs hpr hdr hnodup hmem
    by_cases hemp : durErase s.dur t = []
    · rw [hstep, if_pos hemp]
      simp [hemp]
    · rw [hstep, if_neg hemp]
      simp [hemp]
  · intro s
    rfl

/-- Witness for the C4 theorem: all four parts at concrete sessions. -/
theorem drain_behaviour_witness :
    drain { readyState with codec := false }
        = ({ readyState with codec := false, draining := false },
           [.drainComplete]) ∧
    drain { readyState with dur := [(5, 6)] }
        = ({ readyState with dur := [(5, 6)], draining := true }, []) ∧
    (processFrame envAll (1000 * 5)
        { readyState with dur := [(5, 6)], draining := true }).2
      = [.decoded 5 6, .drainComplete] ∧
    eos readyState = ({ readyState with dur := [] }, [.drainComplete]) := by
  refine ⟨?_, ?_, ?_, ?_⟩
  · exact drain_behaviour.1 { readyState with codec := false } (by left; rfl)
  · exact drain_behaviour.2.1 { readyState with dur := [(5, 6)] } rfl
      (by decide)
  · exact (drain_behaviour.2.2.1 envAll
      { readyState with dur := [(5, 6)], draining := true } 5 6
      rfl rfl rfl rfl rfl rfl rfl rfl rfl (by decide) (by decide)).1.mpr rfl
  · exact drain_behaviour.2.2.2 readyState

/-! ## Reset idempotence (C5) -/

/-- Claim C5: a Reset call in a quiescent session posts one Reset_m
task and fires nothing; a second Reset arriving while the first is
still in progress is a no-op (state unchanged, nothing posted); running
the single posted Reset_m fires exactly one ResetComplete. -/
theorem reset_idempotent (s : DecoderState)
    (hrs : s.resetting = false) (hpr : s.processing = false)
    (hcb : s.callback = true) :
    (reset s).2 = [] ∧
    (reset s).1.pendingResetM = s.pendingResetM + 1 ∧
    reset (reset s).1 = ((reset s).1, []) ∧
    (resetM (reset s).1).2 = [.resetComplete] := by
  obtain ⟨cb, ho, co, cv, dc, dr, rs, pr, st, mt, mw, mh, mf, mcd, du, sq, prm⟩ := s
  simp only at hrs hpr hcb
  subst hrs hpr hcb
  by_cases hcodec : co
  · subst hcodec
    simp [reset, resetM, resetCodec]
  · simp only [Bool.not_eq_true] at hcodec
    subst hcodec
    simp [reset, resetM, resetCodec]

/-- Witness for the C5 theorem at the concrete ready session. -/
theorem reset_idempotent_witness :
    (reset readyState).2 = [] ∧
    (reset readyState).1.pendingResetM = readyState.pendingResetM + 1 ∧
    reset (reset readyState).1 = ((reset readyState).1, []) ∧
    (resetM (reset readyState).1).2 = [.resetComplete] :=
  reset_idempotent readyState rfl rfl rfl

/-! ## Configure followed by Shutdown (C6) -/

/-- Claim C6: for every valid StreamConfig whose codec the hardware
supports, InitDecode followed immediately by DecodingComplete (and the
Reset_m task it posts) with no frames submitted neither opens a
hardware codec handle nor fires any host callback. -/
theorem configure_shutdown_silent (env : Env) (cfg : StreamConfig)
    (hvalid : cfg.codecType ≠ .unknownCodec)
    (hsupp : env.supportedDec cfg.codecType = true) :
    (initDecode env cfg initialDecoderState).2 = [] ∧
    (initDecode env cfg initialDecoderState).1.codec = false ∧
    (decodingComplete (initDecode env cfg initialDecoderState).1).2 = [] ∧
    (decodingComplete (initDecode env cfg initialDecoderState).1).1.codec
      = false ∧
    (resetM (decodingComplete
        (initDecode env cfg initialDecoderState).1).1).2 = [] ∧
    (resetM (decodingComplete
        (initDecode env cfg initialDecoderState).1).1).1.codec = false := by
  obtain ⟨ct, w, h, fps, css, sb⟩ := cfg
  cases ct with
  | unknownCodec => exact absurd rfl hvalid
  | vp8 =>
    simp_all [initDecode, decodingComplete, resetM, resetCodec, errorEmit,
      initialDecoderState, apply_ite]
  | vp9 =>
    simp_all [initDecode, decodingComplete, resetM, resetCodec, errorEmit,
      initialDecoderState, apply_ite]
  | h264 =>
    simp_all [initDecode, decodingComplete, resetM, resetCodec, errorEmit,
      initialDecoderState, apply_ite]

/-- Witness for the C6 theorem at a concrete VP8 stream config. -/
theorem configure_shutdown_silent_witness :
    (initDecode envAll ⟨.vp8, 640, 360, 30, 0, 0⟩ initialDecoderState).2
      = [] ∧
    (initDecode envAll ⟨.vp8, 640, 360, 30, 0, 0⟩
        initialDecoderState).1.codec = false ∧
    (decodingComplete (initDecode envAll ⟨.vp8, 640, 360, 30, 0, 0⟩
        initialDecoderState).1).2 = [] ∧
    (decodingComplete (initDecode envAll ⟨.vp8, 640, 360, 30, 0, 0⟩
        initialDecoderState).1).1.codec = false ∧
    (resetM (decodingComplete (initDecode envAll ⟨.vp8, 640, 360, 30, 0, 0⟩
        initialDecoderState).1).1).2 = [] ∧
    (resetM (decodingComplete (initDecode envAll ⟨.vp8, 640, 360, 30, 0, 0⟩
        initialDecoderState).1).1).1.codec = false :=
  configure_shutdown_silent envAll ⟨.vp8, 640, 360, 30, 0, 0⟩
    (by decide) rfl

/-! ## Unsupported framing on the decode path (C10) -/

/-- A ready H264 session used by the framing theorems. -/
def h264State : DecoderState :=
  { readyState with mtype := some .h264 }

/-- Claim C10 (amended): an H264 frame with a NONEMPTY buffer and
3-byte-length or invalid framing is rejected with GMPDecodeErr before
the buffer copy, the duration cache insert and the worker post. -/
theorem decode_badframing_error (env : Env) (f : CodedFrame)
    (s : DecoderState)
    (hmt : s.mtype = some .h264)
    (hbt : f.bufferType = .len24 ∨ f.bufferType = .invalid)
    (hbuf : f.buf ≠ [])
    (hcb : s.callback = true) :
    decode env f s = (s, [.errorCb .decodeErr]) := by
  have hrf : decodeReframe f.bufferType f.buf = none := by
    obtain ⟨buf, bt, ts, d, ft⟩ := f
    simp only at hbt hbuf ⊢
    cases buf with
    | nil => exact absurd rfl hbuf
    | cons b rest =>
      rcases hbt with h | h <;> subst h <;>
        simp [decodeReframe, decodeLoop, readLen]
  have hne : f.bufferType ≠ .single := by
    rcases hbt with h | h <;> rw [h] <;> simp
  unfold decode
  rw [if_pos ⟨hmt, hne⟩, hrf]
  unfold errorEmit
  rw [if_pos hcb]

/-- Witness for the C10 theorem at a concrete one-byte frame. -/
theorem decode_badframing_error_witness :
    decode envAll ⟨[9], .len24, 5, 7, .keyFrame⟩ h264State
      = (h264State, [.errorCb .decodeErr]) :=
  decode_badframing_error envAll ⟨[9], .len24, 5, 7, .keyFrame⟩ h264State
    rfl (by left; rfl) (by decide) rfl

/-- Claim C10 counterexample: an H264 frame with 3-byte framing but an
EMPTY buffer is not rejected: the reframing loop body never runs, so no
error is fired, the duration is recorded in the cache, and the frame is
posted to the submit worker. -/
theorem decode_badframing_cex :
    decode envAll ⟨[], .len24, 5, 7, .keyFrame⟩ h264State
      = ({ h264State with
            dur := [(5, 7)],
            submitQueue := [⟨[], 5, true⟩] }, []) := by
  decide

/-! ## Encoder InitEncode (DroidVideoEncoder) and claim C7 -/

/-- The DroidVideoEncoder state relevant to InitEncode. -/
structure EncoderState where
  callback : Bool
  codec : Bool
  mtype : Option GMPCodecType
  prependHeader : Bool
  mwidth : Nat
  mheight : Nat
  mfps : Nat
  bitrate : Nat
  colorFormat : Option Nat
  deriving DecidableEq, Repr

/-- Freshly constructed DroidVideoEncoder. -/
def initialEncoderState : EncoderState where
  callback := false
  codec := false
  mtype := none
  prependHeader := false
  mwidth := 0
  mheight := 0
  mfps := 0
  bitrate := 0
  colorFormat := none

/-- DroidVideoEncoder::Error. -/
def encErrorEmit (s : EncoderState) (e : GMPErr) : List HostCb :=
  if s.callback then [.errorCb e] else []

/-- The color-format loop of InitEncode: the list is in codec
preference order and the first OMX planar or semi-planar entry wins. -/
def pickColorFormat (env : Env) : List Nat → Option Nat
  | [] => none
  | f :: rest =>
    if f = env.fmtPlanar ∨ f = env.fmtSemiPlanar then some f
    else pickColorFormat env rest

/-- DroidVideoEncoder::InitEncode: validates the codec kind and RETURNS
after reporting GMPNotImplementedErr when the device lacks the encoder
(unlike the decoder's InitDecode), then sets the remaining metadata and
negotiates the input color format (GMPNotImplementedErr when none). -/
def initEncode (env : Env) (cfg : StreamConfig) (s : EncoderState) :
    EncoderState × List HostCb :=
  let s0 := { s with
      callback := true, mtype := none, prependHeader := false,
      mwidth := 0, mheight := 0, mfps := 0, bitrate := 0,
      colorFormat := none }
  match cfg.codecType with
  | .unknownCodec => (s0, encErrorEmit s0 .notImplementedErr)
  | ct =>
    let s1 := { s0 with
        mtype := some ct, prependHeader := decide (ct = .h264) }
    if ¬ env.supportedEnc ct then
      (s1, encErrorEmit s1 .notImplementedErr)
    else
      let s2 := { s1 with mwidth := cfg.width, mheight := cfg.height }
      let s3 := if cfg.maxFramerate ≠ 0 then { s2 with mfps := cfg.maxFramerate }
        else s2
      let s4 := { s3 with bitrate := cfg.startBitrate * 1024 }
      match pickColorFormat env env.encColorFormats with
      | none => (s4, encErrorEmit s4 .notImplementedErr)
      | some fmt => ({ s4 with colorFormat := some fmt }, [])

/-- An environment whose capability query reports nothing supported. -/
def envNoSupport : Env where
  supportedDec := fun _ => false
  supportedEnc := fun _ => false
  threadOk := true
  codecOk := true
  converterOk := true
  frameOk := true
  convertOk := true
  encColorFormats := [19]
  fmtPlanar := 19
  fmtSemiPlanar := 21

/-- Claim C7 counterexample: for an unsupported codec the DECODER
InitDecode reports the error exactly once but does NOT fail fast: it
keeps configuring the session, still writing the stream width and
height into the codec metadata (the early return is missing, unlike in
InitEncode). -/
theorem unsupported_initdecode_cex :
    (initDecode envNoSupport ⟨.h264, 720, 480, 30, 0, 0⟩
        initialDecoderState).2 = [.errorCb .notImplementedErr] ∧
    (initDecode envNoSupport ⟨.h264, 720, 480, 30, 0, 0⟩
        initialDecoderState).1.mwidth = 720 ∧
    (initDecode envNoSupport ⟨.h264, 720, 480, 30, 0, 0⟩
        initialDecoderState).1.mheight = 480 := by
  refine ⟨?_, ?_, ?_⟩ <;> decide

/-- Claim C7 (amended): when the hardware capability query reports the
codec kind unsupported, the ENCODER InitEncode fails fast as claimed:
exactly one Error callback with GMPNotImplementedErr and no further
configuration (width, height, bitrate and color format keep their
cleared values).  The DECODER InitDecode reports the error exactly
once as well, but performs the remaining configuration anyway. -/
theorem unsupported_fail_fast (env : Env) (cfg : StreamConfig)
    (hvalid : cfg.codecType ≠ .unknownCodec)
    (hdec : env.supportedDec cfg.codecType = false)
    (henc : env.supportedEnc cfg.codecType = false) :
    (initEncode env cfg initialEncoderState).2
        = [.errorCb .notImplementedErr] ∧
    (initEncode env cfg initialEncoderState).1.mwidth = 0 ∧
    (initEncode env cfg initialEncoderState).1.mheight = 0 ∧
    (initEncode env cfg initialEncoderState).1.bitrate = 0 ∧
    (initEncode env cfg initialEncoderState).1.colorFormat = none ∧
    (initDecode env cfg initialDecoderState).2
        = [.errorCb .notImplementedErr] ∧
    (initDecode env cfg initialDecoderState).1.mwidth = cfg.width ∧
    (initDecode env cfg initialDecoderState).1.mheight = cfg.height := by
  obtain ⟨ct, w, h, fps, css, sb⟩ := cfg
  cases ct with
  | unknownCodec => exact absurd rfl hvalid
  | vp8 =>
    simp_all [initEncode, initDecode, encErrorEmit, errorEmit,
      initialEncoderState, initialDecoderState, apply_ite]
  | vp9 =>
    simp_all [initEncode, initDecode, encErrorEmit, errorEmit,
      initialEncoderState, initialDecoderState, apply_ite]
  | h264 =>
    simp_all [initEncode, initDecode, encErrorEmit, errorEmit,
      initialEncoderState, initialDecoderState, apply_ite]

/-- Witness for the C7 theorem at a concrete H264 stream config. -/
theorem unsupported_fail_fast_witness :
    (initEncode envNoSupport ⟨.h264, 720, 480, 30, 0, 0⟩
        initialEncoderState).2 = [.errorCb .notImplementedErr] ∧
    (initEncode envNoSupport ⟨.h264, 720, 480, 30, 0, 0⟩
        initialEncoderState).1.mwidth = 0 ∧
    (initEncode envNoSupport ⟨.h264, 720, 480, 30, 0, 0⟩
        initialEncoderState).1.mheight = 0 ∧
    (initEncode envNoSupport ⟨.h264, 720, 480, 30, 0, 0⟩
        initialEncoderState).1.bitrate = 0 ∧
    (initEncode envNoSupport ⟨.h264, 720, 480, 30, 0, 0⟩
        initialEncoderState).1.colorFormat = none ∧
    (initDecode envNoSupport ⟨.h264, 720, 480, 30, 0, 0⟩
        initialDecoderState).2 = [.errorCb .notImplementedErr] ∧
    (initDecode envNoSupport ⟨.h264, 720, 480, 30, 0, 0⟩
        initialDecoderState).1.mwidth
      = (⟨.h264, 720, 480, 30, 0, 0⟩ : StreamConfig).width ∧
    (initDecode envNoSupport ⟨.h264, 720, 480, 30, 0, 0⟩
        initialDecoderState).1.mheight
      = (⟨.h264, 720, 480, 30, 0, 0⟩ : StreamConfig).height :=
  unsupported_fail_fast envNoSupport ⟨.h264, 720, 480, 30, 0, 0⟩
    (by decide) rfl rfl

/-! ## Pixel converter alignment (gmp-droid-conv.cpp, claim C8) -/

/-- ALIGN_SIZE(size, to) = ((size + to - 1) & ~(to - 1)) in 32-bit
two's-complement arithmetic: for a power of two the mask ~(to - 1) is
2^32 - to. -/
def alignSize (size a : Nat) : Nat :=
  (size + a - 1) &&& (2 ^ 32 - a)

/-- DroidMediaRect. -/
structure Rect where
  top : Nat
  left : Nat
  right : Nat
  bottom : Nat
  deriving DecidableEq, Repr

/-- The geometry fields every DroidColourConvert carries. -/
structure ConvFormat where
  stride : Nat
  sliceHeight : Nat
  width : Nat
  height : Nat
  top : Nat
  left : Nat
  deriving DecidableEq, Repr

/-- DroidColourConvert::SetFormat (the base class): stride from the
reported width, slice height from the reported height, crop offsets
and extents from the rectangle. -/
def baseSetFormat (rect : Rect) (width height : Nat) : ConvFormat where
  stride := width
  sliceHeight := height
  top := rect.top
  left := rect.left
  width := rect.right - rect.left
  height := rect.bottom - rect.top

/-- ConvertYUV420PackedSemiPlanar32m::SetFormat: the base assignment
followed by the 128/32/2/2 alignments. -/
def packedSemiPlanar32mSetFormat (rect : Rect) (width height : Nat) :
    ConvFormat :=
  let c := baseSetFormat rect width height
  { c with
      stride := alignSize c.stride 128,
      sliceHeight := alignSize c.sliceHeight 32,
      top := alignSize c.top 2,
      left := alignSize c.left 2 }

/-- Masking with 2^32 - 2^k clears the low k bits: the round-down to a
multiple of 2^k, for 32-bit values. -/
theorem land_mask (x k : Nat) (hx : x < 2 ^ 32) (hk : k ≤ 32) :
    x &&& (2 ^ 32 - 2 ^ k) = 2 ^ k * (x / 2 ^ k) := by
  have hmask : 2 ^ 32 - 2 ^ k = (2 ^ (32 - k) - 1) <<< k := by
    rw [Nat.shiftLeft_eq, Nat.sub_mul, one_mul, ← Nat.pow_add]
    congr 2
    omega
  have hrhs : 2 ^ k * (x / 2 ^ k) = (x >>> k) <<< k := by
    rw [Nat.shiftRight_eq_div_pow, Nat.shiftLeft_eq]
    exact Nat.mul_comm _ _
  rw [hmask, hrhs]
  apply Nat.eq_of_testBit_eq
  intro i
  rw [Nat.testBit_land, Nat.testBit_shiftLeft, Nat.testBit_shiftLeft,
    Nat.testBit_shiftRight, Nat.testBit_two_pow_sub_one]
  by_cases hki : k ≤ i
  · have e1 : k + (i - k) = i := by omega
    by_cases hi32 : i < 32
    · have e2 : i - k < 32 - k := by omega
      simp [hki, e1, e2]
    · have hxf : x.testBit i = false :=
        Nat.testBit_lt_two_pow
          (lt_of_lt_of_le hx (Nat.pow_le_pow_right (by norm_num) (by omega)))
      have e2 : ¬ (i - k < 32 - k) := by omega
      simp [hki, e1, e2, hxf]
  · simp [hki]

/-- alignSize rounds up to the next multiple of a power of two (32-bit
inputs). -/
theorem alignSize_pow2 (s k : Nat) (_hk : 1 ≤ k) (hk32 : k ≤ 32)
    (hs : s + 2 ^ k - 1 < 2 ^ 32) :
    alignSize s (2 ^ k) = 2 ^ k * ((s + 2 ^ k - 1) / 2 ^ k) := by
  unfold alignSize
  exact land_mask (s + 2 ^ k - 1) k hs hk32

/-- Claim C8: the PackedSemiPlanar (32m) converter's SetFormat rounds
the stride up to the next multiple of 128, the slice height up to the
next multiple of 32, and the crop top/left offsets up to the next
multiple of 2; in particular width 720 gives stride 768 and height 480
gives slice height 480. -/
theorem packed_semiplanar_alignment (rect : Rect) (w h : Nat)
    (hw : w + 127 < 2 ^ 32) (hh : h + 31 < 2 ^ 32)
    (htop : rect.top + 1 < 2 ^ 32) (hleft : rect.left + 1 < 2 ^ 32) :
    (packedSemiPlanar32mSetFormat rect w h).stride
        = 128 * ((w + 127) / 128) ∧
    (packedSemiPlanar32mSetFormat rect w h).sliceHeight
        = 32 * ((h + 31) / 32) ∧
    (packedSemiPlanar32mSetFormat rect w h).top
        = 2 * ((rect.top + 1) / 2) ∧
    (packedSemiPlanar32mSetFormat rect w h).left
        = 2 * ((rect.left + 1) / 2) ∧
    (packedSemiPlanar32mSetFormat rect 720 480).stride = 768 ∧
    (packedSemiPlanar32mSetFormat rect 720 480).sliceHeight = 480 := by
  have h128 : ∀ x : Nat, x + 127 < 2 ^ 32 →
      alignSize x 128 = 128 * ((x + 127) / 128) := by
    intro x hx
    have h0 := alignSize_pow2 x 7 (by norm_num) (by norm_num)
      (by norm_num; omega)
    norm_num at h0
    exact h0
  have h32 : ∀ x : Nat, x + 31 < 2 ^ 32 →
      alignSize x 32 = 32 * ((x + 31) / 32) := by
    intro x hx
    have h0 := alignSize_pow2 x 5 (by norm_num) (by norm_num)
      (by norm_num; omega)
    norm_num at h0
    exact h0
  have h2 : ∀ x : Nat, x + 1 < 2 ^ 32 →
      alignSize x 2 = 2 * ((x + 1) / 2) := by
    intro x hx
    have h0 := alignSize_pow2 x 1 (by norm_num) (by norm_num)
      (by norm_num; omega)
    norm_num at h0
    exact h0
  refine ⟨?_, ?_, ?_, ?_, ?_, ?_⟩
  · exact h128 w hw
  · exact h32 h hh
  · exact h2 rect.top htop
  · exact h2 rect.left hleft
  · have := h128 720 (by norm_num)
    rw [show (packedSemiPlanar32mSetFormat rect 720 480).stride
        = alignSize 720 128 from rfl, this]
  · have := h32 480 (by norm_num)
    rw [show (packedSemiPlanar32mSetFormat rect 720 480).sliceHeight
        = alignSize 480 32 from rfl, this]

/-- Witness for the C8 theorem at the 720x480 geometry with a zero
crop origin. -/
theorem packed_semiplanar_alignment_witness :
    (packedSemiPlanar32mSetFormat ⟨0, 0, 720, 480⟩ 720 480).stride
        = 128 * ((720 + 127) / 128) ∧
    (packedSemiPlanar32mSetFormat ⟨0, 0, 720, 480⟩ 720 480).sliceHeight
        = 32 * ((480 + 31) / 32) ∧
    (packedSemiPlanar32mSetFormat ⟨0, 0, 720, 480⟩ 720 480).top
        = 2 * ((0 + 1) / 2) ∧
    (packedSemiPlanar32mSetFormat ⟨0, 0, 720, 480⟩ 720 480).left
        = 2 * ((0 + 1) / 2) ∧
    (packedSemiPlanar32mSetFormat ⟨0, 0, 720, 480⟩ 720 480).stride = 768 ∧
    (packedSemiPlanar32mSetFormat ⟨0, 0, 720, 480⟩ 720 480).sliceHeight
        = 480 :=
  packed_semiplanar_alignment ⟨0, 0, 720, 480⟩ 720 480
    (by norm_num) (by norm_num) (by norm_num) (by norm_num)

/-! ## Capability probe (generate-info.cpp, claim C9) -/

/-- The fixed codec table of the probe: droidmedia mime type and GMP
short tag, iterated in this order. -/
def probeCodecs : List (String × String) :=
  [("video/avc", "h264"), ("video/x-vnd.on2.vp8", "vp8"),
   ("video/x-vnd.on2.vp9", "vp9")]

/-- The collection loop of main: push the short tag of every codec the
droid_media_codec_is_supported query reports for the direction. -/
def collectSupported (sup : String → Bool → Bool) (isEnc : Bool) :
    List (String × String) → List String
  | [] => []
  | c :: rest =>
    if sup c.1 isEnc then c.2 :: collectSupported sup isEnc rest
    else collectSupported sup isEnc rest

/-- The first-flag loop of printSupportedApi: a colon before every tag
but the first. -/
def joinTags : Bool → List String → String
  | _, [] => ""
  | first, c :: rest =>
    (if first then "" else ":") ++ c ++ joinTags false rest

/-- printSupportedApi: api name, bracket, colon-separated tags. -/
def printSupportedApi (api : String) (codecs : List String) : String :=
  api ++ "[" ++ joinTags true codecs ++ "]"

/-- main of generate-info.cpp: the capability descriptor text. -/
def generateInfo (sup : String → Bool → Bool) : String :=
  "Name: gmp-droid\n" ++ "Description: gst-droid GMP plugin for Gecko\n"
    ++ "Version: 0.1\n"
    ++ "APIs: "
    ++ printSupportedApi "decode-video" (collectSupported sup false probeCodecs)
    ++ ", "
    ++ printSupportedApi "encode-video" (collectSupported sup true probeCodecs)
    ++ "\n"

theorem joinTags_go (l : List String) :
    ∀ acc : String,
      acc ++ joinTags false l = String.intercalate.go acc ":" l := by
  induction l with
  | nil =>
    intro acc
    simp [joinTags, String.intercalate.go]
  | cons a as ih =>
    intro acc
    simp only [joinTags, String.intercalate.go]
    rw [← ih (acc ++ ":" ++ a)]
    simp [String.append_assoc]

theorem joinTags_intercalate (l : List String) :
    joinTags true l = String.intercalate ":" l := by
  cases l with
  | nil => rfl
  | cons a as =>
    simp only [joinTags, String.intercalate]
    rw [← joinTags_go as a]
    simp

theorem collectSupported_eq (sup : String → Bool → Bool) (isEnc : Bool) :
    ∀ l : List (String × String),
      collectSupported sup isEnc l
        = (l.filter (fun c => sup c.1 isEnc)).map Prod.snd := by
  intro l
  induction l with
  | nil => rfl
  | cons c rest ih =>
    by_cases hc : sup c.1 isEnc
    · simp [collectSupported, List.filter_cons, hc, ih]
    · simp [collectSupported, List.filter_cons, hc, ih]

/-- The fixed descriptor layout: Name, Description and Version lines
and one APIs line with decode-video and encode-video brackets, each
holding a colon-separated tag list. -/
def infoTemplate (decTags encTags : List String) : String :=
  "Name: gmp-droid\n" ++ "Description: gst-droid GMP plugin for Gecko\n"
    ++ "Version: 0.1\n"
    ++ "APIs: "
    ++ ("decode-video" ++ "[" ++ String.intercalate ":" decTags ++ "]")
    ++ ", "
    ++ ("encode-video" ++ "[" ++ String.intercalate ":" encTags ++ "]")
    ++ "\n"

/-- Claim C9: for every combination of hardware-reported codec support
the probe emits exactly the fixed descriptor: the Name, Description
and Version lines and a single APIs line carrying decode-video[...]
and encode-video[...], each bracket holding the colon-separated short
tags of exactly the codecs the hardware reports supported for that
direction, in the fixed order h264, vp8, vp9. -/
theorem probe_descriptor (sup : String → Bool → Bool) :
    generateInfo sup
      = infoTemplate
          ((probeCodecs.filter (fun c => sup c.1 false)).map Prod.snd)
          ((probeCodecs.filter (fun c => sup c.1 true)).map Prod.snd) := by
  unfold generateInfo printSupportedApi infoTemplate
  rw [collectSupported_eq, collectSupported_eq,
    joinTags_intercalate, joinTags_intercalate]

end GmpDroid
